import Mathlib

/-!
Verification of the object-database core of the wyag repository
(src/libwyag.py and src/lib/repository.py) against its specification.

Byte strings are modelled as lists of natural numbers (each element a byte
value).  Python primitives used by the source are modelled explicitly:
bytes.find with its -1 result, slice notation with negative-index clamping,
bytes.replace for the two fixed patterns of the KVLM codec, int() on a
decimal string with surrounding spaces, int(s, 16), int.from_bytes /
int.to_bytes, and str formatting of naturals.  Recursions that in Python
are loops over a cursor are modelled with explicit fuel; the wrappers pass
fuel that provably suffices for every terminating run of the source, and a
run that exhausts the fuel (a run on which the Python code would not
terminate or would throw) is mapped to none.  zlib compression and SHA-1
are modelled as abstract function parameters: no claim depends on any
property of them beyond determinism and decompress being a left inverse of
compress.
-/

/-- Python b.find(c, start) restricted to a nonnegative start: index of the
first occurrence of c in b at position at least start, or -1. -/
def idxOf? (c : Nat) : List Nat → Option Nat
  | [] => none
  | b :: bs => if b = c then some 0 else (idxOf? c bs).map (· + 1)

def bfindNat (raw : List Nat) (c : Nat) (s : Nat) : Int :=
  match idxOf? c (raw.drop s) with
  | some i => ((s + i : Nat) : Int)
  | none => -1

/-- Python b.find(c, start) with the slice semantics of a negative start. -/
def bfind (raw : List Nat) (c : Nat) (start : Int) : Int :=
  bfindNat raw c (if start < 0 then (raw.length + start).toNat else start.toNat)

/-- Clamp one bound of a Python slice b[i:j] to an index into b. -/
def sliceIdx (len : Nat) (i : Int) : Nat :=
  if i < 0 then (len + i).toNat else min i.toNat len

/-- Python slice raw[a:b] including the negative-index convention. -/
def pySlice (raw : List Nat) (a b : Int) : List Nat :=
  (raw.take (sliceIdx raw.length b)).drop (sliceIdx raw.length a)

def pyGetN : List Nat → Nat → Option Nat
  | [], _ => none
  | b :: _, 0 => some b
  | _ :: rest, i+1 => pyGetN rest i

/-- Python raw[i] for an Int index (negative indices count from the end);
IndexError is modelled as none. -/
def pyGetI (raw : List Nat) (i : Int) : Option Nat :=
  if i < 0 then
    if raw.length + i < 0 then none else pyGetN raw (raw.length + i).toNat
  else pyGetN raw i.toNat

def isDigit (d : Nat) : Bool := 48 ≤ d && d ≤ 57

def digitsVal (ds : List Nat) : Nat := ds.foldl (fun a d => a * 10 + (d - 48)) 0

/-- Python int(s) for the shapes that occur in object headers: optional
leading spaces then decimal digits.  (Python additionally strips other
whitespace and accepts a sign and digit-group underscores; none of those
can occur in a header written by object_write, and the theorems that use
pyInt? on arbitrary input take its success as a hypothesis.) -/
def pyInt? (s : List Nat) : Option Nat :=
  let t := s.dropWhile (fun b => b == 32)
  if !t.isEmpty && t.all isDigit then some (digitsVal t) else none

def isHexDigit (d : Nat) : Bool :=
  (48 ≤ d && d ≤ 57) || (97 ≤ d && d ≤ 102) || (65 ≤ d && d ≤ 70)

def hexVal (d : Nat) : Nat :=
  if d ≤ 57 then d - 48 else if d ≤ 70 then d - 55 else d - 87

/-- Python int(s, 16) for a plain string of hex digits, the only shape a
tree-leaf digest reaching tree_serialize can have. -/
def hexToNat? (s : List Nat) : Option Nat :=
  if !s.isEmpty && s.all isHexDigit then
    some (s.foldl (fun a d => a * 16 + hexVal d) 0)
  else none

/-- Digit expansion of a natural in the given base, most significant digit
first, with explicit fuel (fuel at least n always suffices). -/
def toDigitsAux (base : Nat) (dc : Nat → Nat) : Nat → Nat → List Nat → List Nat
  | 0, _, acc => acc
  | fuel+1, n, acc =>
    if n = 0 then acc else toDigitsAux base dc fuel (n / base) (dc (n % base) :: acc)

/-- Python str(n) for a natural n, as ASCII bytes. -/
def natToDec (n : Nat) : List Nat :=
  if n = 0 then [48] else toDigitsAux 10 (fun d => 48 + d) n n []

def hexDigitChar (d : Nat) : Nat := if d < 10 then 48 + d else 87 + d

def natToHex (n : Nat) : List Nat :=
  if n = 0 then [48] else toDigitsAux 16 hexDigitChar n n []

/-- Python format(n, "040x"): lowercase hex, left padded with zeros to
width 40. -/
def natToHex40 (n : Nat) : List Nat :=
  List.replicate (40 - (natToHex n).length) 48 ++ natToHex n

/-- Python int.from_bytes(bs, "big"). -/
def bytesToNatBE (bs : List Nat) : Nat := bs.foldl (fun a b => a * 256 + b) 0

/-- Python n.to_bytes(len, "big") for n < 256 ^ len (the caller checks the
bound, mirroring OverflowError). -/
def natToBytesBE : Nat → Nat → List Nat
  | 0, _ => []
  | k+1, n => natToBytesBE k (n / 256) ++ [n % 256]

/-- Python value.replace(b"\n", b"\n "): the KVLM continuation escape. -/
def escNl : List Nat → List Nat
  | [] => []
  | b :: rest => if b = 10 then 10 :: 32 :: escNl rest else b :: escNl rest

/-- Python value.replace(b"\n ", b"\n"): the KVLM continuation un-escape
(leftmost, non-overlapping, scanning forward as CPython does). -/
def unescNl : List Nat → List Nat
  | [] => []
  | [b] => [b]
  | b :: c :: rest =>
    if b = 10 ∧ c = 32 then 10 :: unescNl rest else b :: unescNl (c :: rest)

/-!
KVLM codec (src/libwyag.py, kvlm_parse and kvlm_serialize).

A Python dict whose keys are None or bytes and whose values are bytes or
lists of bytes is modelled as an association list in insertion order; the
message sentinel is the key none.
-/

inductive KvlmVal where
  | single (v : List Nat)
  | multi (vs : List (List Nat))

deriving DecidableEq, Repr

def Kvlm : Type := List (Option (List Nat) × KvlmVal)

instance : DecidableEq Kvlm := by unfold Kvlm; infer_instance

instance : Append Kvlm := by unfold Kvlm; infer_instance

/-- Mutation dct[key].append(value) respectively dct[key] = [dct[key], value]
performed by kvlm_parse when a key recurs. -/
def kvlmValAppend : KvlmVal → List Nat → KvlmVal
  | .single v, w => .multi [v, w]
  | .multi vs, w => .multi (vs ++ [w])

def kvlmHasKey (dct : List (Option (List Nat) × KvlmVal)) (key : List Nat) : Bool :=
  dct.any (fun p => p.1 = some key)

/-- Insertion of one parsed field into the dict: a fresh key is appended at
the end (Python dicts keep insertion order); a recurring key has its value
extended in place. -/
def kvlmInsert (dct : List (Option (List Nat) × KvlmVal)) (key value : List Nat) :
    List (Option (List Nat) × KvlmVal) :=
  if kvlmHasKey dct key then
    dct.map (fun p => if p.1 = some key then (p.1, kvlmValAppend p.2 value) else p)
  else dct ++ [(some key, .single value)]

/-- Body of the while loop of kvlm_parse that finds the newline terminating
a value: repeatedly find(b"\n", end+1) until the following byte is not a
space.  An IndexError on raw[end+1] is none; fuel bounds the iterations. -/
def kvlmContEnd (raw : List Nat) : Nat → Int → Option Int
  | 0, _ => none
  | fuel+1, e =>
    let e2 := bfind raw 10 (e + 1)
    match pyGetI raw (e2 + 1) with
    | none => none
    | some b => if b = 32 then kvlmContEnd raw fuel e2 else some e2

/-- Recursive body of kvlm_parse.  The assert nl == start of the source is
modelled as none when it fails; so is fuel exhaustion, which only happens
on inputs where the source recurses forever or overflows the stack. -/
def kvlmParseRec (raw : List Nat) : Nat → Nat → List (Option (List Nat) × KvlmVal) →
    Option (List (Option (List Nat) × KvlmVal))
  | 0, _, _ => none
  | fuel+1, start, dct =>
    let spc := bfind raw 32 (start : Int)
    let nl := bfind raw 10 (start : Int)
    if spc < 0 ∨ nl < spc then
      if nl = (start : Int) then
        some (dct ++ [((none : Option (List Nat)),
          KvlmVal.single (pySlice raw ((start : Int) + 1) raw.length))])
      else none
    else
      match kvlmContEnd raw (raw.length + 1) (start : Int) with
      | none => none
      | some e =>
        let key := pySlice raw (start : Int) spc
        let value := unescNl (pySlice raw (spc + 1) e)
        kvlmParseRec raw fuel (e + 1).toNat (kvlmInsert dct key value)

def kvlm_parse (raw : List Nat) : Option Kvlm :=
  kvlmParseRec raw (raw.length + 2) 0 []

/-- Bytes emitted by the serializer for one key and its list of values:
key SP escaped-value LF for each value. -/
def kvlmFieldBytes (k : List Nat) (vs : List (List Nat)) : List Nat :=
  (vs.map (fun v => k ++ [32] ++ escNl v ++ [10])).flatten

def kvlmValList : KvlmVal → List (List Nat)
  | .single v => [v]
  | .multi vs => vs

def kvlmLookupNone : List (Option (List Nat) × KvlmVal) → Option KvlmVal
  | [] => none
  | (none, v) :: _ => some v
  | _ :: rest => kvlmLookupNone rest

/-- kvlm_serialize: emit the fields in stored order, skipping the none key,
then a blank line and the message.  The KeyError on a missing message
sentinel (and the TypeError were the sentinel bound to a list) is none. -/
def kvlm_serialize (kvlm : Kvlm) : Option (List Nat) :=
  match kvlmLookupNone kvlm with
  | some (.single m) =>
    some (((kvlm : List (Option (List Nat) × KvlmVal)).map (fun p =>
      match p.1 with
      | none => []
      | some k => kvlmFieldBytes k (kvlmValList p.2))).flatten ++ [10] ++ m)
  | _ => none

/-!
Tree codec (src/libwyag.py, tree_parse_one, tree_parse, tree_leaf_sort_key,
tree_serialize).

The source stores a leaf path as the UTF-8 decode of the raw bytes and a
digest as a Python string of 40 hex characters; both are modelled as the
corresponding byte lists.  UTF-8 encode after decode restores the original
bytes, and Python string comparison of decoded paths coincides with
byte-wise lexicographic comparison of their UTF-8 encodings, so the sort
below is the sort of the source.
-/

structure GitTreeLeaf where
  mode : List Nat
  path : List Nat
  sha : List Nat

deriving DecidableEq, Repr

/-- tree_parse_one: mode up to the first space (asserting its width is 5 or
6 and normalizing 5 to 6 with a leading zero byte), path up to the first
NUL, then 20 raw digest bytes rendered to 40 hex characters. -/
def tree_parse_one (raw : List Nat) (start : Nat) : Option (Nat × GitTreeLeaf) :=
  let x := bfind raw 32 (start : Int)
  if x - (start : Int) = 5 ∨ x - (start : Int) = 6 then
    let mode0 := pySlice raw (start : Int) x
    let mode := if mode0.length = 5 then 48 :: mode0 else mode0
    let y := bfind raw 0 x
    let path := pySlice raw (x + 1) y
    let sha := natToHex40 (bytesToNatBE (pySlice raw (y + 1) (y + 21)))
    some ((y + 21).toNat, ⟨mode, path, sha⟩)
  else none

def treeParseRec (raw : List Nat) : Nat → Nat → Option (List GitTreeLeaf)
  | 0, _ => none
  | fuel+1, pos =>
    if pos < raw.length then
      match tree_parse_one raw pos with
      | none => none
      | some (pos2, leaf) => (treeParseRec raw fuel pos2).map (leaf :: ·)
    else some []

def tree_parse (raw : List Nat) : Option (List GitTreeLeaf) :=
  treeParseRec raw (raw.length + 1) 0

/-- tree_leaf_sort_key: the path itself for a regular file (mode starting
with the two bytes "10"), the path with a trailing slash otherwise. -/
def tree_leaf_sort_key (leaf : GitTreeLeaf) : List Nat :=
  if leaf.mode.take 2 = [49, 48] then leaf.path else leaf.path ++ [47]

/-- Byte-wise lexicographic order: the comparison Python uses on the sort
keys (identical to code-point order of the decoded strings). -/
def bytesLe : List Nat → List Nat → Bool
  | [], _ => true
  | _ :: _, [] => false
  | a :: as, b :: bs => decide (a < b) || (a == b && bytesLe as bs)

def leafLe (a b : GitTreeLeaf) : Prop :=
  bytesLe (tree_leaf_sort_key a) (tree_leaf_sort_key b) = true

instance : DecidableRel leafLe := fun a b => by unfold leafLe; infer_instance

/-- Result of the in-place obj.items.sort(key=tree_leaf_sort_key) performed
by tree_serialize.  Python list.sort is a stable sort with respect to the
key order; a stable sort is modelled here as insertion sort, which computes
the same list as any other stable sort for this total preorder. -/
def tree_sorted_items (items : List GitTreeLeaf) : List GitTreeLeaf :=
  List.insertionSort leafLe items

/-- Bytes of one emitted tree entry: stored mode, space, path, NUL, the
digest parsed back from hex with int(sha, 16) and written with
to_bytes(20, "big").  A digest that is not hex or does not fit in 20 bytes
raises in the source and is none here. -/
def tree_entry_bytes (leaf : GitTreeLeaf) : Option (List Nat) :=
  match hexToNat? leaf.sha with
  | none => none
  | some n =>
    if n < 256 ^ 20 then
      some (leaf.mode ++ [32] ++ leaf.path ++ [0] ++ natToBytesBE 20 n)
    else none

def seqBytes : List (Option (List Nat)) → Option (List Nat)
  | [] => some []
  | none :: _ => none
  | some b :: rest => (seqBytes rest).map (b ++ ·)

/-- Payload written by tree_serialize: the entries in canonical sorted
order, concatenated.  The first component of tree_serialize below records
the in-place mutation of obj.items that the sort performs. -/
def tree_serialize_bytes (items : List GitTreeLeaf) : Option (List Nat) :=
  seqBytes ((tree_sorted_items items).map tree_entry_bytes)

/-- tree_serialize(obj): returns the pair (state of obj.items after the
call, emitted payload).  The source sorts obj.items in place before
emitting, so the post-call entry list is the sorted one. -/
def tree_serialize (items : List GitTreeLeaf) : List GitTreeLeaf × Option (List Nat) :=
  (tree_sorted_items items, tree_serialize_bytes items)

/-!
Object model and framing (src/libwyag.py: GitBlob, GitCommit, GitTag,
GitTree, object_read, object_write, object_hash).
-/

inductive GitObject where
  | blob (blobdata : List Nat)
  | commit (kvlm : Kvlm)
  | tag (kvlm : Kvlm)
  | tree (items : List GitTreeLeaf)

deriving DecidableEq

def blobTag : List Nat := [98, 108, 111, 98]

def commitTag : List Nat := [99, 111, 109, 109, 105, 116]

def treeTag : List Nat := [116, 114, 101, 101]

def tagTag : List Nat := [116, 97, 103]

def obj_fmt : GitObject → List Nat
  | .blob _ => blobTag
  | .commit _ => commitTag
  | .tag _ => tagTag
  | .tree _ => treeTag

/-- Payload produced by obj.serialize().  For a tree this is the second
component of tree_serialize; the in-place sort it performs does not change
the bytes a later serialize of the same object emits, because sorting is
idempotent.  The tag variant has no serializer: the source never defines
the class GitTag, so no tag object — hence no serialize method for one —
exists in the program, and the variant is mapped to failure. -/
def obj_serialize : GitObject → Option (List Nat)
  | .blob d => some d
  | .commit k => kvlm_serialize k
  | .tag _ => none
  | .tree items => (tree_serialize items).2

/-- Constructor dispatch of object_hash: c(data) calls deserialize(data) on
the class selected by fmt; an exception inside a codec or an unknown fmt is
none.  The tag case references the class GitTag, which the source never
defines, so GitTag(data) raises NameError before any object exists: that
case is failure for every payload. -/
def object_from_data (fmt data : List Nat) : Option GitObject :=
  if fmt = commitTag then (kvlm_parse data).map .commit
  else if fmt = treeTag then (tree_parse data).map .tree
  else if fmt = tagTag then none
  else if fmt = blobTag then some (.blob data)
  else none

inductive ReadErr where
  | notFound
  | malformed
  | badInt
  | unknownType
  | codecFail
  | nameError

deriving DecidableEq

deriving instance DecidableEq for Except

/-- Constructor dispatch of object_read (its match on fmt), applied to the
payload after the NUL.  The tag case assigns c=GitTag, a class the source
never defines, so it raises NameError (nameError here) without reading the
payload. -/
def object_dispatch (fmt data : List Nat) : Except ReadErr GitObject :=
  if fmt = commitTag then
    match kvlm_parse data with
    | some d => .ok (.commit d)
    | none => .error .codecFail
  else if fmt = treeTag then
    match tree_parse data with
    | some t => .ok (.tree t)
    | none => .error .codecFail
  else if fmt = tagTag then .error .nameError
  else if fmt = blobTag then .ok (.blob data)
  else .error .unknownType

/-- Header handling of object_read on the inflated bytes: locate the first
space and the first NUL after it, parse the declared ASCII-decimal size
(int of raw[x:y], whose first byte is the space itself), raise Malformed
when it differs from len(raw) - y - 1, and otherwise dispatch raw[y+1:]
by fmt = raw[0:x]. -/
def object_read_raw (raw : List Nat) : Except ReadErr GitObject :=
  let x := bfind raw 32 0
  let fmt := pySlice raw 0 x
  let y := bfind raw 0 x
  match pyInt? (pySlice raw x y) with
  | none => .error .badInt
  | some size =>
    if (size : Int) ≠ (raw.length : Int) - y - 1 then .error .malformed
    else object_dispatch fmt (pySlice raw (y + 1) raw.length)

/-!
Object store.  The files under the gitdir that object_read and
object_write touch are modelled as an association list from the path
"objects/<sha[0:2]>/<sha[2:]>" to the stored (compressed) bytes; lookup
takes the most recent binding.  Directory creation by repo_file(...,
mkdir=True) has no observable effect in this flat map.  zlib.compress,
zlib.decompress and hashlib.sha1(...).hexdigest() enter as the function
parameters zc, zd and sha1hex.
-/

def Store : Type := List (String × List Nat)

def storeLookup : List (String × List Nat) → String → Option (List Nat)
  | [], _ => none
  | (p, v) :: rest, q => if p = q then some v else storeLookup rest q

def objPath (sha : String) : String :=
  "objects/" ++ (sha.take 2) ++ "/" ++ (sha.drop 2)

/-- object_read(repo, sha): a missing file returns None (notFound); the
stored bytes are inflated with zd and unframed with object_read_raw. -/
def object_read (zd : List Nat → List Nat) (st : Store) (sha : String) :
    Except ReadErr GitObject :=
  match storeLookup st (objPath sha) with
  | none => .error .notFound
  | some comp => object_read_raw (zd comp)

/-- object_write(obj, repo): serialize, frame with the type tag and the
decimal length, hash the framed bytes, and if a repository is supplied
write the deflated framing at the digest-derived path unless that file
already exists.  Returns the digest together with the resulting store; a
serializer exception is none. -/
def object_write (zc : List Nat → List Nat) (sha1hex : List Nat → String)
    (obj : GitObject) (repo : Option Store) : Option (String × Option Store) :=
  match obj_serialize obj with
  | none => none
  | some data =>
    let result := obj_fmt obj ++ [32] ++ natToDec data.length ++ [0] ++ data
    let sha := sha1hex result
    match repo with
    | none => some (sha, none)
    | some st =>
      match storeLookup st (objPath sha) with
      | some _ => some (sha, some st)
      | none => some (sha, some ((objPath sha, zc result) :: st))

/-!
Repository layout (src/lib/repository.py: repo_create and
repo_default_config).  The filesystem is a set of directory paths plus a
map from file paths to string contents; paths are segment lists rooted at
an abstract root.
-/

structure FS where
  dirs : List (List String)
  files : List (List String × String)

deriving DecidableEq

def fsIsDir (fs : FS) (p : List String) : Bool := fs.dirs.any (fun d => d = p)

def fsFileContent (fs : FS) (p : List String) : Option String :=
  match fs.files.find? (fun e => e.1 = p) with
  | some e => some e.2
  | none => none

def fsIsFile (fs : FS) (p : List String) : Bool := (fsFileContent fs p).isSome

def fsExists (fs : FS) (p : List String) : Bool := fsIsDir fs p || fsIsFile fs p

/-- Nonemptiness of os.listdir(p): some entry lies strictly below p. -/
def fsHasChild (fs : FS) (p : List String) : Bool :=
  fs.dirs.any (fun d => d ≠ p && p.isPrefixOf d) ||
    fs.files.any (fun e => p.isPrefixOf e.1)

def properPrefixes (p : List String) : List (List String) :=
  (List.range p.length).map (fun k => p.take (k + 1))

/-- os.makedirs(p): creates p and every missing ancestor; FileExistsError
when p already exists, NotADirectoryError when an ancestor exists as a
file. -/
def fsMakedirs (fs : FS) (p : List String) : Option FS :=
  if fsExists fs p then none
  else if (properPrefixes p).any (fun q => fsIsFile fs q) then none
  else some { fs with
    dirs := fs.dirs ++ (properPrefixes p).filter (fun q => !fsIsDir fs q) }

/-- open(p, "w") followed by a full write: requires the parent directory to
exist and p not to be a directory; replaces any previous content. -/
def fsWrite (fs : FS) (p : List String) (content : String) : Option FS :=
  if fsIsDir fs p then none
  else if !fsIsDir fs p.dropLast then none
  else some { fs with files := (p, content) :: fs.files.filter (fun e => e.1 ≠ p) }

/-- repo_dir(repo, *segs, mkdir=True) as used from repo_create: returns the
filesystem unchanged when gitdir/segs is already a directory, raises when
it exists as a file, creates it otherwise.  The surrounding assert only
checks the returned path is truthy, which it is whenever no exception was
raised. -/
def repoDirMk (fs : FS) (gitdir segs : List String) : Option FS :=
  let p := gitdir ++ segs
  if fsExists fs p then (if fsIsDir fs p then some fs else none)
  else fsMakedirs fs p

def repo_default_config : List (String × List (String × String)) :=
  [("core", [("repositoryformatversion", "0"), ("filemode", "false"),
    ("bare", "false")])]

/-- configparser.ConfigParser.write: section headers then key = value
lines, a blank line after each section. -/
def iniWrite (cfg : List (String × List (String × String))) : String :=
  String.join (cfg.map (fun s =>
    "[" ++ s.1 ++ "]\n" ++
      String.join (s.2.map (fun kv => kv.1 ++ " = " ++ kv.2 ++ "\n")) ++ "\n"))

def descriptionText : String :=
  "Unnamed repository: edit this file \x27description\x27 to name the repository.\n"

def headText : String := "ref: refs/heads/master\n"

/-- repo_create(path).  The GitRepository(path, True) constructor can only
fail observably when path/.git exists as a non-directory (reading an
existing config file has no effect on the filesystem and its parsed
contents are never consulted under force=True).  Then: path must be a
directory if it exists and path/.git must be absent or empty, otherwise
the worktree is created; the four subdirectories are created through
repo_dir(..., mkdir=True); description, HEAD and config are written. -/
def repo_create (fs : FS) (path : List String) : Option FS :=
  let gitdir := path ++ [".git"]
  if fsExists fs gitdir && !fsIsDir fs gitdir then none
  else
    (if fsExists fs path then
      if !fsIsDir fs path then none
      else if fsExists fs gitdir && fsHasChild fs gitdir then none
      else some fs
    else fsMakedirs fs path).bind fun fs1 =>
    (repoDirMk fs1 gitdir ["branches"]).bind fun fs2 =>
    (repoDirMk fs2 gitdir ["objects"]).bind fun fs3 =>
    (repoDirMk fs3 gitdir ["refs", "tags"]).bind fun fs4 =>
    (repoDirMk fs4 gitdir ["refs", "heads"]).bind fun fs5 =>
    (fsWrite fs5 (gitdir ++ ["description"]) descriptionText).bind fun fs6 =>
    (fsWrite fs6 (gitdir ++ ["HEAD"]) headText).bind fun fs7 =>
    fsWrite fs7 (gitdir ++ ["config"]) (iniWrite repo_default_config)

/-- The digit list of n: what toDigitsAux computes with adequate fuel. -/
def digitsOf (base : Nat) (dc : Nat → Nat) (n : Nat) : List Nat :=
  toDigitsAux base dc n n []

/-!
Characterization of kvlm_parse on well-formed encoder output.
-/

def kvlmFieldOne (k v : List Nat) : List Nat := k ++ [32] ++ escNl v ++ [10]

def kvlmFieldsFlat (ps : List (List Nat × List Nat)) : List Nat :=
  (ps.map (fun p => kvlmFieldOne p.1 p.2)).flatten

def kvlmInsertAll (dct : List (Option (List Nat) × KvlmVal))
    (ps : List (List Nat × List Nat)) : List (Option (List Nat) × KvlmVal) :=
  ps.foldl (fun d p => kvlmInsert d p.1 p.2) dct

/-- A key a correct encoder can emit: nonempty, no space, no newline. -/
def GoodKey (k : List Nat) : Prop := k ≠ [] ∧ 32 ∉ k ∧ 10 ∉ k

/-!
The dict built by kvlm_parse from grouped fields, and what kvlm_serialize
emits for it.
-/

def kvlmValOf : List (List Nat) → KvlmVal
  | [v] => .single v
  | vs => .multi vs

def kvlmValFoldl (w : KvlmVal) (vs : List (List Nat)) : KvlmVal :=
  vs.foldl kvlmValAppend w

/-- Dict entries for a grouped field list (one entry per distinct key). -/
def kvlmOfGroups (gs : List (List Nat × List (List Nat))) :
    List (Option (List Nat) × KvlmVal) :=
  gs.map (fun g => (some g.1, kvlmValOf g.2))

/-- The flat (key, value) pair sequence a grouped field list denotes. -/
def groupsFlat (gs : List (List Nat × List (List Nat))) :
    List (List Nat × List Nat) :=
  (gs.map (fun g => g.2.map (fun v => (g.1, v)))).flatten

/-- Keys of a grouped field list. -/
def groupKeys (gs : List (List Nat × List (List Nat))) : List (List Nat) :=
  gs.map (fun g => g.1)

/-!
Characterization of the tree codec on well-formed leaves.
-/

/-- A leaf whose stored fields are the normalized form the decoder
produces: a 6-byte mode without spaces, a path without NUL, and a digest
that is a hex string denoting a 20-byte value. -/
def GoodLeaf (l : GitTreeLeaf) : Prop :=
  l.mode.length = 6 ∧ 32 ∉ l.mode ∧ 0 ∉ l.path ∧
    ∃ n, hexToNat? l.sha = some n ∧ n < 256 ^ 20

/-- The digest value of a leaf (0 when the digest is not hex). -/
def leafShaVal (l : GitTreeLeaf) : Nat := (hexToNat? l.sha).getD 0

/-- Entry bytes of a well-formed leaf. -/
def entryBytesGood (l : GitTreeLeaf) : List Nat :=
  l.mode ++ [32] ++ l.path ++ [0] ++ natToBytesBE 20 (leafShaVal l)

/-- The leaf the decoder reconstructs from the entry of a well-formed
leaf: same mode and path, digest re-rendered to 40 lowercase hex. -/
def reLeaf (l : GitTreeLeaf) : GitTreeLeaf :=
  ⟨l.mode, l.path, natToHex40 (leafShaVal l)⟩

def entriesBytes (items : List GitTreeLeaf) : List Nat :=
  (items.map entryBytesGood).flatten

def bytesLe_total : ∀ a b : List Nat, bytesLe a b = true ∨ bytesLe b a = true := by
  intro a
  induction a with
  | nil => intro b; left; rfl
  | cons x xs ih =>
    intro b
    cases b with
    | nil => right; rfl
    | cons y ys =>
      by_cases hxy : x = y
      · subst hxy
        rcases ih ys with h | h
        · left; simp [bytesLe, h]
        · right; simp [bytesLe, h]
      · rcases Nat.lt_or_ge x y with h | h
        · left; simp [bytesLe, h]
        · right
          have : y < x := by omega
          simp [bytesLe, this]

def bytesLe_trans : ∀ a b c : List Nat,
    bytesLe a b = true → bytesLe b c = true → bytesLe a c = true := by
  intro a
  induction a with
  | nil => intro b c _ _; rfl
  | cons x xs ih =>
    intro b c hab hbc
    cases b with
    | nil => simp [bytesLe] at hab
    | cons y ys =>
      cases c with
      | nil => simp [bytesLe] at hbc
      | cons z zs =>
        simp only [bytesLe, Bool.or_eq_true, Bool.and_eq_true, decide_eq_true_eq,
          beq_iff_eq] at hab hbc ⊢
        rcases hab with h1 | ⟨rfl, h1⟩
        · rcases hbc with h2 | ⟨rfl, h2⟩
          · left; omega
          · left; exact h1
        · rcases hbc with h2 | ⟨rfl, h2⟩
          · left; exact h2
          · right; exact ⟨rfl, ih ys zs h1 h2⟩

instance : IsTotal GitTreeLeaf leafLe :=
  ⟨fun a b => bytesLe_total (tree_leaf_sort_key a) (tree_leaf_sort_key b)⟩

instance : IsTrans GitTreeLeaf leafLe :=
  ⟨fun a b c => bytesLe_trans (tree_leaf_sort_key a) (tree_leaf_sort_key b)
    (tree_leaf_sort_key c)⟩

/-!
Basic lemmas about the Python primitives.
-/

theorem idxOf?_cons_self (c : Nat) (l : List Nat) : idxOf? c (c :: l) = some 0 := by
  simp [idxOf?]

theorem idxOf?_not_mem {c : Nat} {l : List Nat} (h : c ∉ l) : idxOf? c l = none := by
  induction l with
  | nil => rfl
  | cons b bs ih =>
    simp only [List.mem_cons, not_or] at h
    simp [idxOf?, Ne.symm h.1, ih h.2]

theorem idxOf?_append_not_mem {c : Nat} {xs : List Nat} (ys : List Nat) (h : c ∉ xs) :
    idxOf? c (xs ++ ys) = (idxOf? c ys).map (· + xs.length) := by
  induction xs with
  | nil =>
    simp only [List.nil_append, List.length_nil]
    cases idxOf? c ys with
    | none => rfl
    | some a => simp
  | cons b bs ih =>
    simp only [List.mem_cons, not_or] at h
    have hb : ¬ (b = c) := fun hh => h.1 hh.symm
    simp only [List.cons_append, idxOf?, if_neg hb, List.length_cons,
      List.append_eq]
    rw [ih h.2]
    cases idxOf? c ys with
    | none => rfl
    | some a => simp [Nat.add_assoc]

theorem bfind_coe (raw : List Nat) (c s : Nat) :
    bfind raw c (s : Int) = bfindNat raw c s := by
  unfold bfind
  rw [if_neg (by omega : ¬ ((s : Int) < 0)), Int.toNat_natCast]

theorem bfindNat_of_drop {raw : List Nat} {s : Nat} {c : Nat} {xs ys : List Nat}
    (h : raw.drop s = xs ++ c :: ys) (hc : c ∉ xs) :
    bfindNat raw c s = ((s + xs.length : Nat) : Int) := by
  unfold bfindNat
  rw [h, idxOf?_append_not_mem _ hc, idxOf?_cons_self]
  simp

theorem bfindNat_none {raw : List Nat} {s : Nat} {c : Nat}
    (hc : c ∉ raw.drop s) : bfindNat raw c s = -1 := by
  unfold bfindNat
  rw [idxOf?_not_mem hc]

theorem drop_of_drop_append {raw : List Nat} {s : Nat} {u rest : List Nat}
    (h : raw.drop s = u ++ rest) : raw.drop (s + u.length) = rest := by
  rw [← List.drop_drop, h, List.drop_left]

theorem length_split_of_drop {raw : List Nat} {s : Nat} {u rest : List Nat}
    (hs : s ≤ raw.length) (h : raw.drop s = u ++ rest) :
    raw.length = s + u.length + rest.length := by
  have h1 : (raw.drop s).length = raw.length - s := List.length_drop s raw
  rw [h] at h1
  simp only [List.length_append] at h1
  omega

theorem pySlice_drop (raw : List Nat) (a : Nat) :
    pySlice raw (a : Int) (raw.length : Int) = raw.drop a := by
  unfold pySlice sliceIdx
  have h0 : ¬ ((raw.length : Int) < 0) := by omega
  have h1 : ¬ ((a : Int) < 0) := by omega
  simp only [if_neg h0, if_neg h1, Int.toNat_natCast, min_self, List.take_length]
  rcases Nat.le_total a raw.length with h | h
  · rw [min_eq_left h]
  · rw [min_eq_right h, List.drop_eq_nil_of_le (le_refl _),
      List.drop_eq_nil_of_le h]

theorem pySlice_nat (raw : List Nat) (a b : Nat) (hb : b ≤ raw.length) :
    pySlice raw (a : Int) (b : Int) = (raw.drop a).take (b - a) := by
  unfold pySlice sliceIdx
  have h0 : ¬ ((b : Int) < 0) := by omega
  have h1 : ¬ ((a : Int) < 0) := by omega
  simp only [if_neg h0, if_neg h1, Int.toNat_natCast, min_eq_left hb]
  rcases Nat.le_total a raw.length with h | h
  · rw [min_eq_left h, List.drop_take]
  · rw [min_eq_right h]
    rw [List.drop_eq_nil_of_le (by simp only [List.length_take]; omega),
      List.take_eq_nil_of_eq_nil (List.drop_eq_nil_of_le h)]

theorem pySlice_segment {raw : List Nat} {s : Nat} {u rest : List Nat}
    (hs : s ≤ raw.length) (h : raw.drop s = u ++ rest) :
    pySlice raw (s : Int) ((s + u.length : Nat) : Int) = u := by
  have hlen := length_split_of_drop hs h
  rw [pySlice_nat raw s (s + u.length) (by omega)]
  rw [h, Nat.add_sub_cancel_left, List.take_left]

theorem pyGetN_eq_head?_drop (raw : List Nat) (n : Nat) :
    pyGetN raw n = (raw.drop n).head? := by
  induction raw generalizing n with
  | nil => cases n <;> rfl
  | cons b bs ih => cases n with
    | zero => rfl
    | succ m => simpa [pyGetN] using ih m

/-!
Correctness of the digit conversions.
-/

theorem toDigitsAux_acc (base : Nat) (dc : Nat → Nat) :
    ∀ f n acc, toDigitsAux base dc f n acc = toDigitsAux base dc f n [] ++ acc := by
  intro f
  induction f with
  | zero => intro n acc; rfl
  | succ f ih =>
    intro n acc
    by_cases hn : n = 0
    · simp [toDigitsAux, hn]
    · rw [toDigitsAux, toDigitsAux, if_neg hn, if_neg hn, ih, ih (n / base) [_]]
      simp

theorem toDigitsAux_fuel {base : Nat} (hb : 2 ≤ base) (dc : Nat → Nat) :
    ∀ n f1 f2 acc, n ≤ f1 → n ≤ f2 →
      toDigitsAux base dc f1 n acc = toDigitsAux base dc f2 n acc := by
  intro n
  induction n using Nat.strong_induction_on with
  | _ n ih =>
    intro f1 f2 acc h1 h2
    by_cases hn : n = 0
    · subst hn
      cases f1 <;> cases f2 <;> simp [toDigitsAux]
    · have hn1 : 1 ≤ n := Nat.one_le_iff_ne_zero.mpr hn
      obtain ⟨g1, rfl⟩ : ∃ g, f1 = g + 1 := ⟨f1 - 1, by omega⟩
      obtain ⟨g2, rfl⟩ : ∃ g, f2 = g + 1 := ⟨f2 - 1, by omega⟩
      rw [toDigitsAux, toDigitsAux, if_neg hn, if_neg hn]
      have hlt : n / base < n := Nat.div_lt_self (by omega) hb
      exact ih (n / base) hlt g1 g2 _ (by omega) (by omega)

theorem digitsOf_zero (base : Nat) (dc : Nat → Nat) : digitsOf base dc 0 = [] := rfl

theorem digitsOf_decomp {base : Nat} (hb : 2 ≤ base) (dc : Nat → Nat) {n : Nat}
    (hn : n ≠ 0) :
    digitsOf base dc n = digitsOf base dc (n / base) ++ [dc (n % base)] := by
  have hn1 : 1 ≤ n := Nat.one_le_iff_ne_zero.mpr hn
  obtain ⟨g, hg⟩ : ∃ g, n = g + 1 := ⟨n - 1, by omega⟩
  unfold digitsOf
  conv_lhs => rw [hg]
  rw [toDigitsAux, if_neg (by omega), toDigitsAux_acc]
  rw [← hg]
  have hlt : n / base < n := Nat.div_lt_self (by omega) hb
  rw [toDigitsAux_fuel hb dc (n / base) g (n / base) [] (by omega) (le_refl _)]

theorem digitsOf_all {base : Nat} (hb : 2 ≤ base) (dc : Nat → Nat) :
    ∀ n, ∀ d ∈ digitsOf base dc n, ∃ k, k < base ∧ d = dc k := by
  intro n
  induction n using Nat.strong_induction_on with
  | _ n ih =>
    intro d hd
    by_cases hn : n = 0
    · subst hn; simp [digitsOf_zero] at hd
    · rw [digitsOf_decomp hb dc hn] at hd
      rcases List.mem_append.mp hd with h | h
      · exact ih (n / base) (Nat.div_lt_self (by omega) hb) d h
      · simp only [List.mem_singleton] at h
        exact ⟨n % base, Nat.mod_lt _ (by omega), h⟩

theorem digitsOf_foldl {base : Nat} (hb : 2 ≤ base) (dc vc : Nat → Nat)
    (hvc : ∀ k, k < base → vc (dc k) = k) :
    ∀ n a, (digitsOf base dc n).foldl (fun x d => x * base + vc d) a
      = a * base ^ (digitsOf base dc n).length + n := by
  intro n
  induction n using Nat.strong_induction_on with
  | _ n ih =>
    intro a
    by_cases hn : n = 0
    · subst hn; simp [digitsOf_zero]
    · rw [digitsOf_decomp hb dc hn, List.foldl_append, List.length_append]
      have hlt : n / base < n := Nat.div_lt_self (by omega) hb
      rw [ih (n / base) hlt a]
      simp only [List.foldl_cons, List.foldl_nil, List.length_singleton]
      rw [hvc (n % base) (Nat.mod_lt _ (by omega))]
      rw [pow_succ]
      have hmod := Nat.div_add_mod n base
      ring_nf
      nlinarith [Nat.div_add_mod n base]

theorem natToDec_eq_digitsOf {n : Nat} (hn : n ≠ 0) :
    natToDec n = digitsOf 10 (fun d => 48 + d) n := by
  unfold natToDec digitsOf
  rw [if_neg hn]

theorem natToDec_all_digit (n : Nat) : ∀ d ∈ natToDec n, 48 ≤ d ∧ d ≤ 57 := by
  by_cases hn : n = 0
  · subst hn; intro d hd; simp [natToDec] at hd; omega
  · rw [natToDec_eq_digitsOf hn]
    intro d hd
    obtain ⟨k, hk, rfl⟩ := digitsOf_all (by omega) _ n d hd
    omega

theorem natToDec_ne_nil (n : Nat) : natToDec n ≠ [] := by
  by_cases hn : n = 0
  · subst hn; simp [natToDec]
  · rw [natToDec_eq_digitsOf hn]
    intro hcon
    rw [digitsOf_decomp (by omega) _ hn] at hcon
    simp at hcon

theorem digitsVal_natToDec (n : Nat) : digitsVal (natToDec n) = n := by
  by_cases hn : n = 0
  · subst hn; rfl
  · rw [natToDec_eq_digitsOf hn]
    unfold digitsVal
    have h := @digitsOf_foldl 10 (by omega) (fun d => 48 + d)
      (fun d => d - 48) (fun k _ => by show 48 + k - 48 = k; omega) n 0
    simpa using h

theorem pyInt?_space_natToDec (n : Nat) : pyInt? (32 :: natToDec n) = some n := by
  unfold pyInt?
  rw [List.dropWhile_cons]
  simp only [beq_self_eq_true, if_true]
  have hnil : (natToDec n).dropWhile (fun b => b == 32) = natToDec n := by
    cases hh : natToDec n with
    | nil => rfl
    | cons d ds =>
      rw [List.dropWhile_cons]
      have hd := natToDec_all_digit n d (by rw [hh]; exact List.mem_cons_self _ _)
      rw [if_neg (by simp; omega)]
  rw [hnil]
  have hne : ¬ (natToDec n).isEmpty := by
    cases hh : natToDec n with
    | nil => exact absurd hh (natToDec_ne_nil n)
    | cons d ds => simp
  have hall : (natToDec n).all isDigit := by
    rw [List.all_eq_true]
    intro d hd
    have := natToDec_all_digit n d hd
    unfold isDigit
    simp
    omega
  rw [if_pos (by simp [hne, hall])]
  rw [digitsVal_natToDec]

theorem natToHex_eq_digitsOf {n : Nat} (hn : n ≠ 0) :
    natToHex n = digitsOf 16 hexDigitChar n := by
  unfold natToHex digitsOf
  rw [if_neg hn]

theorem natToHex_all_hexDigit (n : Nat) :
    ∀ d ∈ natToHex n, (48 ≤ d ∧ d ≤ 57) ∨ (97 ≤ d ∧ d ≤ 102) := by
  by_cases hn : n = 0
  · subst hn; intro d hd; simp [natToHex] at hd; omega
  · rw [natToHex_eq_digitsOf hn]
    intro d hd
    obtain ⟨k, hk, rfl⟩ := digitsOf_all (by omega) _ n d hd
    unfold hexDigitChar
    by_cases h10 : k < 10
    · rw [if_pos h10]; omega
    · rw [if_neg h10]; omega

theorem hexVal_hexDigitChar {k : Nat} (hk : k < 16) : hexVal (hexDigitChar k) = k := by
  unfold hexVal hexDigitChar
  by_cases h10 : k < 10
  · rw [if_pos h10, if_pos (by omega)]
    omega
  · rw [if_neg h10, if_neg (by omega), if_neg (by omega)]
    omega

theorem hexFold_natToHex (n : Nat) :
    (natToHex n).foldl (fun a d => a * 16 + hexVal d) 0 = n := by
  by_cases hn : n = 0
  · subst hn; simp [natToHex, hexVal]
  · rw [natToHex_eq_digitsOf hn]
    have h := @digitsOf_foldl 16 (by omega) hexDigitChar hexVal
      (fun k hk => hexVal_hexDigitChar hk) n 0
    simpa using h

theorem hexFold_replicate_zero (k : Nat) (a : Nat) :
    (List.replicate k 48).foldl (fun a d => a * 16 + hexVal d) a = a * 16 ^ k := by
  induction k generalizing a with
  | zero => simp
  | succ m ih =>
    rw [List.replicate_succ, List.foldl_cons, ih]
    have : hexVal 48 = 0 := by unfold hexVal; norm_num
    rw [this]
    ring

theorem hexToNat?_natToHex40 (n : Nat) : hexToNat? (natToHex40 n) = some n := by
  unfold hexToNat? natToHex40
  have hne : natToHex n ≠ [] := by
    by_cases hn : n = 0
    · subst hn; simp [natToHex]
    · rw [natToHex_eq_digitsOf hn]
      rw [digitsOf_decomp (by omega) _ hn]
      simp
  have hnonempty : ¬ (List.replicate (40 - (natToHex n).length) 48 ++ natToHex n).isEmpty := by
    rw [List.isEmpty_iff, List.append_eq_nil]
    intro ⟨_, h2⟩
    exact hne h2
  have hall : (List.replicate (40 - (natToHex n).length) 48 ++ natToHex n).all isHexDigit := by
    rw [List.all_eq_true]
    intro d hd
    rcases List.mem_append.mp hd with h | h
    · have := List.eq_of_mem_replicate h
      subst this
      decide
    · have := natToHex_all_hexDigit n d h
      unfold isHexDigit
      simp
      omega
  rw [if_pos (by simp only [hnonempty, hall]; rfl)]
  rw [List.foldl_append, hexFold_replicate_zero]
  simp only [Nat.zero_mul]
  rw [hexFold_natToHex]

theorem bytesToNatBE_natToBytesBE {len : Nat} :
    ∀ {n : Nat}, n < 256 ^ len → bytesToNatBE (natToBytesBE len n) = n := by
  induction len with
  | zero => intro n h; simp at h; subst h; rfl
  | succ k ih =>
    intro n h
    unfold natToBytesBE bytesToNatBE
    rw [List.foldl_append]
    have hdiv : n / 256 < 256 ^ k := by
      rw [Nat.div_lt_iff_lt_mul (by omega)]
      calc n < 256 ^ (k + 1) := h
        _ = 256 ^ k * 256 := by rw [pow_succ]
    have := ih hdiv
    unfold bytesToNatBE at this
    rw [this]
    simp only [List.foldl_cons, List.foldl_nil]
    omega

theorem natToBytesBE_bytesToNatBE :
    ∀ {bs : List Nat}, (∀ b ∈ bs, b < 256) →
      natToBytesBE bs.length (bytesToNatBE bs) = bs := by
  intro bs
  induction bs using List.reverseRecOn with
  | nil => intro _; rfl
  | append_singleton bs b ih =>
    intro hb
    have hb' : ∀ x ∈ bs, x < 256 := fun x hx => hb x (List.mem_append_left _ hx)
    have hblt : b < 256 := hb b (List.mem_append_right _ (List.mem_singleton_self _))
    rw [List.length_append, List.length_singleton]
    unfold natToBytesBE
    have hval : bytesToNatBE (bs ++ [b]) = bytesToNatBE bs * 256 + b := by
      unfold bytesToNatBE
      rw [List.foldl_append]
      simp
    rw [hval]
    have hdiv : (bytesToNatBE bs * 256 + b) / 256 = bytesToNatBE bs := by omega
    have hmod : (bytesToNatBE bs * 256 + b) % 256 = b := by omega
    rw [hdiv, hmod, ih hb']

theorem bytesToNatBE_lt {bs : List Nat} (hb : ∀ b ∈ bs, b < 256) :
    bytesToNatBE bs < 256 ^ bs.length := by
  induction bs using List.reverseRecOn with
  | nil => simp [bytesToNatBE]
  | append_singleton bs b ih =>
    have hb' : ∀ x ∈ bs, x < 256 := fun x hx => hb x (List.mem_append_left _ hx)
    have hblt : b < 256 := hb b (List.mem_append_right _ (List.mem_singleton_self _))
    have hv : bytesToNatBE (bs ++ [b]) = bytesToNatBE bs * 256 + b := by
      unfold bytesToNatBE
      rw [List.foldl_append]
      simp
    rw [hv, List.length_append, List.length_singleton, pow_succ]
    have := ih hb'
    nlinarith

/-!
Lemmas about the continuation escape and un-escape.
-/

theorem escNl_append (xs ys : List Nat) : escNl (xs ++ ys) = escNl xs ++ escNl ys := by
  induction xs with
  | nil => rfl
  | cons b bs ih =>
    by_cases hb : b = 10
    · simp [escNl, hb, ih]
    · simp [escNl, hb, ih]

theorem escNl_of_not_mem {v : List Nat} (h : 10 ∉ v) : escNl v = v := by
  induction v with
  | nil => rfl
  | cons b bs ih =>
    simp only [List.mem_cons, not_or] at h
    have hb : b ≠ 10 := fun hh => h.1 hh.symm
    simp [escNl, hb, ih h.2]

theorem escNl_cons_ten (v : List Nat) : escNl (10 :: v) = 10 :: 32 :: escNl v := by
  simp [escNl]

theorem escNl_cons_ne {b : Nat} (v : List Nat) (hb : b ≠ 10) :
    escNl (b :: v) = b :: escNl v := by
  simp [escNl, hb]

theorem escNl_eq_nil_iff {v : List Nat} : escNl v = [] ↔ v = [] := by
  constructor
  · intro h
    cases v with
    | nil => rfl
    | cons b bs =>
      by_cases hb : b = 10
      · rw [hb, escNl_cons_ten] at h; exact absurd h (by simp)
      · rw [escNl_cons_ne _ hb] at h; exact absurd h (by simp)
  · intro h; rw [h]; rfl

theorem length_le_escNl (v : List Nat) : v.length ≤ (escNl v).length := by
  induction v with
  | nil => simp
  | cons b bs ih =>
    by_cases hb : b = 10
    · rw [hb, escNl_cons_ten]; simp; omega
    · rw [escNl_cons_ne _ hb]; simp; omega

theorem unescNl_cons_ne {b : Nat} (v : List Nat) (hb : b ≠ 10) :
    unescNl (b :: v) = b :: unescNl v := by
  cases v with
  | nil => rfl
  | cons c cs =>
    simp only [unescNl]
    rw [if_neg (fun hcon => hb hcon.1)]

theorem unescNl_escNl (v : List Nat) : unescNl (escNl v) = v := by
  induction v with
  | nil => rfl
  | cons b bs ih =>
    by_cases hb : b = 10
    · subst hb
      rw [escNl_cons_ten]
      unfold unescNl
      rw [if_pos ⟨rfl, rfl⟩, ih]
    · rw [escNl_cons_ne _ hb, unescNl_cons_ne _ hb, ih]

theorem mem_split_first {v : List Nat} (h : 10 ∈ v) :
    ∃ v1 v2, v = v1 ++ 10 :: v2 ∧ 10 ∉ v1 := by
  induction v with
  | nil => cases h
  | cons b bs ih =>
    by_cases hb : b = 10
    · exact ⟨[], bs, by rw [hb]; rfl, by simp⟩
    · have hmem : 10 ∈ bs := by
        rcases List.mem_cons.mp h with h1 | h1
        · exact absurd h1.symm hb
        · exact h1
      obtain ⟨v1, v2, heq, hnot⟩ := ih hmem
      exact ⟨b :: v1, v2, by rw [heq]; rfl, by
        simp only [List.mem_cons, not_or]
        exact ⟨fun hh => hb hh.symm, hnot⟩⟩

theorem pyGetI_coe (raw : List Nat) (k : Nat) :
    pyGetI raw ((k : Nat) : Int) = pyGetN raw k := by
  unfold pyGetI
  rw [if_neg (by omega : ¬ ((k : Int) < 0)), Int.toNat_natCast]

/-- Behavior of the continuation-finding loop of kvlm_parse on an escaped
value followed by its terminating newline. -/
theorem kvlmContEnd_spec (raw : List Nat) :
    ∀ (c : Nat) (v pre rest : List Nat) (e f : Nat) (r0 : Nat) (rest' : List Nat),
      v.count 10 = c →
      raw.drop (e + 1) = pre ++ escNl v ++ 10 :: rest →
      10 ∉ pre →
      rest = r0 :: rest' →
      r0 ≠ 32 →
      c + 1 ≤ f →
      kvlmContEnd raw f (e : Int)
        = some (((e + 1 + pre.length + (escNl v).length : Nat) : Int)) := by
  intro c
  induction c using Nat.strong_induction_on with
  | _ c ih =>
    intro v pre rest e f r0 rest' hcount hdrop hpre hrest hr0 hf
    obtain ⟨f', rfl⟩ : ∃ g, f = g + 1 := ⟨f - 1, by omega⟩
    unfold kvlmContEnd
    have hcoe : (e : Int) + 1 = ((e + 1 : Nat) : Int) := by push_cast; ring
    by_cases hmem : 10 ∈ v
    · obtain ⟨v1, v2, hv, hv1⟩ := mem_split_first hmem
      have hesc : escNl v = v1 ++ 10 :: 32 :: escNl v2 := by
        rw [hv, escNl_append, escNl_of_not_mem hv1, escNl_cons_ten]
      have hdrop2 : raw.drop (e + 1)
          = (pre ++ v1) ++ 10 :: (32 :: escNl v2 ++ 10 :: rest) := by
        rw [hdrop, hesc]
        simp
      have hfind := bfindNat_of_drop hdrop2 (by
        simp only [List.mem_append, not_or]
        exact ⟨hpre, hv1⟩)
      set t := e + 1 + (pre ++ v1).length with ht
      have hdropt : raw.drop (t + 1) = 32 :: escNl v2 ++ 10 :: rest := by
        have h1 : raw.drop (e + 1)
            = ((pre ++ v1) ++ [10]) ++ (32 :: escNl v2 ++ 10 :: rest) := by
          rw [hdrop2]; simp
        have h2 := drop_of_drop_append h1
        have hidx : e + 1 + ((pre ++ v1) ++ [10]).length = t + 1 := by
          simp only [List.length_append, List.length_singleton, ht]
          omega
        rw [hidx] at h2
        exact h2
      have hcoe2 : ((t : Nat) : Int) + 1 = ((t + 1 : Nat) : Int) := by push_cast; ring
      have hdrop3 : raw.drop (t + 1) = [] ++ escNl (32 :: v2) ++ 10 :: rest := by
        rw [hdropt, escNl_cons_ne _ (by omega : (32 : Nat) ≠ 10)]
        rfl
      have hc2 : (32 :: v2).count 10 < c := by
        have hcv : v.count 10 = v2.count 10 + 1 := by
          rw [hv, List.count_append, List.count_cons_self,
            List.count_eq_zero_of_not_mem hv1]
          omega
        rw [List.count_cons_of_ne (by omega : (10 : Nat) ≠ 32)]
        omega
      have hres := ih ((32 :: v2).count 10) hc2 (32 :: v2) [] rest t f' r0 rest'
        rfl hdrop3 (by simp) hrest hr0 (by omega)
      have hlen : t + 1 + ([] : List Nat).length + (escNl (32 :: v2)).length
          = e + 1 + pre.length + (escNl v).length := by
        rw [escNl_cons_ne _ (by omega : (32 : Nat) ≠ 10)]
        simp only [List.length_nil, List.length_cons, List.length_append, ht,
          hesc]
        omega
      rw [hlen] at hres
      simp only [hcoe, bfind_coe, hfind, hcoe2, pyGetI_coe, pyGetN_eq_head?_drop,
        hdropt, List.head?_cons, if_pos rfl]
      exact hres
    · have hesc : escNl v = v := escNl_of_not_mem hmem
      have hdrop2 : raw.drop (e + 1) = (pre ++ v) ++ 10 :: rest := by
        rw [hdrop, hesc]
      have hfind := bfindNat_of_drop hdrop2 (by
        simp only [List.mem_append, not_or]
        exact ⟨hpre, hmem⟩)
      set t := e + 1 + (pre ++ v).length with ht
      have hdropt : raw.drop (t + 1) = rest := by
        have h1 : raw.drop (e + 1) = ((pre ++ v) ++ [10]) ++ rest := by
          rw [hdrop2]; simp
        have h2 := drop_of_drop_append h1
        have hidx : e + 1 + ((pre ++ v) ++ [10]).length = t + 1 := by
          simp only [List.length_append, List.length_singleton, ht]
          omega
        rw [hidx] at h2
        exact h2
      have hcoe2 : ((t : Nat) : Int) + 1 = ((t + 1 : Nat) : Int) := by push_cast; ring
      have hlen : t = e + 1 + pre.length + (escNl v).length := by
        rw [ht, hesc, List.length_append]
        omega
      simp only [hcoe, bfind_coe, hfind, hcoe2, pyGetI_coe, pyGetN_eq_head?_drop,
        hdropt, hrest, List.head?_cons, if_neg hr0]
      rw [hlen]

theorem idxOf?_of_mem {c : Nat} {l : List Nat} (h : c ∈ l) :
    ∃ i, idxOf? c l = some i := by
  induction l with
  | nil => cases h
  | cons b bs ih =>
    by_cases hb : b = c
    · exact ⟨0, by simp [idxOf?, hb]⟩
    · have hmem : c ∈ bs := by
        rcases List.mem_cons.mp h with h1 | h1
        · exact absurd h1.symm hb
        · exact h1
      obtain ⟨i, hi⟩ := ih hmem
      exact ⟨i + 1, by simp [idxOf?, hb, hi]⟩

theorem kvlmFieldsFlat_cons (k v : List Nat) (ps : List (List Nat × List Nat)) :
    kvlmFieldsFlat ((k, v) :: ps) = k ++ [32] ++ escNl v ++ [10] ++ kvlmFieldsFlat ps := by
  simp [kvlmFieldsFlat, kvlmFieldOne]

/-- The first byte after a field is either the first byte of the next key or
the blank-line newline; in either case it exists and is not a space. -/
theorem kvlmFieldsFlat_head (ps : List (List Nat × List Nat)) (msg : List Nat)
    (hps : ∀ p ∈ ps, GoodKey p.1) :
    ∃ r0 rest', kvlmFieldsFlat ps ++ 10 :: msg = r0 :: rest' ∧ r0 ≠ 32 := by
  cases ps with
  | nil => exact ⟨10, msg, rfl, by omega⟩
  | cons p ps' =>
    obtain ⟨hk1, hk2, hk3⟩ := hps p (List.mem_cons_self _ _)
    cases hp : p.1 with
    | nil => exact absurd hp hk1
    | cons k0 krest =>
      refine ⟨k0, krest ++ [32] ++ escNl p.2 ++ [10] ++ kvlmFieldsFlat ps' ++ 10 :: msg, ?_, ?_⟩
      · cases p with
        | mk pk pv =>
          simp only at hp
          subst hp
          rw [kvlmFieldsFlat_cons]
          simp
      · intro hcon
        exact hk2 (by rw [hp, hcon]; exact List.mem_cons_self _ _)

theorem kvlmParseRec_spec (raw : List Nat) :
    ∀ (ps : List (List Nat × List Nat)) (msg : List Nat) (start : Nat)
      (dct : List (Option (List Nat) × KvlmVal)) (f : Nat),
      raw.drop start = kvlmFieldsFlat ps ++ 10 :: msg →
      start ≤ raw.length →
      (∀ p ∈ ps, GoodKey p.1) →
      ps.length + 1 ≤ f →
      kvlmParseRec raw f start dct
        = some (kvlmInsertAll dct ps ++ [(none, KvlmVal.single msg)]) := by
  intro ps
  induction ps with
  | nil =>
    intro msg start dct f hdrop hstart hgood hf
    obtain ⟨f', rfl⟩ : ∃ g, f = g + 1 := ⟨f - 1, by omega⟩
    unfold kvlmParseRec
    simp only [kvlmFieldsFlat, List.map_nil, List.flatten_nil, List.nil_append] at hdrop
    have hnl : bfindNat raw 10 start = ((start : Nat) : Int) := by
      have hsplit0 : raw.drop start = [] ++ 10 :: msg := by simpa using hdrop
      have := bfindNat_of_drop hsplit0 (by simp)
      simpa using this
    have hcond : bfind raw 32 (start : Int) < 0 ∨
        bfind raw 10 (start : Int) < bfind raw 32 (start : Int) := by
      rw [bfind_coe, bfind_coe, hnl]
      unfold bfindNat
      cases h32 : idxOf? 32 (raw.drop start) with
      | none => left; simp
      | some i =>
        right
        rw [hdrop] at h32
        cases hi : i with
        | zero =>
          subst hi
          rw [idxOf?] at h32
          simp at h32
        | succ j =>
          subst hi
          push_cast
          omega
    rw [if_pos hcond, if_pos (by rw [bfind_coe, hnl])]
    have hmsg : raw.drop (start + 1) = msg :=
      drop_of_drop_append (u := [10]) (by simpa using hdrop)
    have hcoe : (start : Int) + 1 = ((start + 1 : Nat) : Int) := by push_cast; ring
    rw [hcoe, pySlice_drop, hmsg]
    rfl
  | cons p ps' ih =>
    intro msg start dct f hdrop hstart hgood hf
    obtain ⟨f', rfl⟩ : ∃ g, f = g + 1 := ⟨f - 1, by omega⟩
    obtain ⟨k, v⟩ := p
    have hgk : GoodKey k := hgood (k, v) (List.mem_cons_self _ _)
    obtain ⟨hk1, hk2, hk3⟩ := hgk
    rw [kvlmFieldsFlat_cons] at hdrop
    have hdropA : raw.drop start
        = k ++ 32 :: (escNl v ++ 10 :: (kvlmFieldsFlat ps' ++ 10 :: msg)) := by
      rw [hdrop]; simp
    have hlen := length_split_of_drop hstart hdropA
    simp only [List.length_append, List.length_cons] at hlen
    have hspc : bfindNat raw 32 start = ((start + k.length : Nat) : Int) :=
      bfindNat_of_drop hdropA hk2
    have hnl10 : ∃ j, bfindNat raw 10 start = ((start + k.length + 1 + j : Nat) : Int) := by
      unfold bfindNat
      rw [hdropA]
      have h1 : idxOf? 10 (k ++ 32 :: (escNl v ++ 10 :: (kvlmFieldsFlat ps' ++ 10 :: msg)))
          = (idxOf? 10 (32 :: (escNl v ++ 10 :: (kvlmFieldsFlat ps' ++ 10 :: msg)))).map
            (· + k.length) := idxOf?_append_not_mem _ hk3
      have h2 : idxOf? 10 (32 :: (escNl v ++ 10 :: (kvlmFieldsFlat ps' ++ 10 :: msg)))
          = (idxOf? 10 (escNl v ++ 10 :: (kvlmFieldsFlat ps' ++ 10 :: msg))).map (· + 1) := by
        rw [idxOf?]
        simp
      obtain ⟨i, hi⟩ := idxOf?_of_mem
        (c := 10) (l := escNl v ++ 10 :: (kvlmFieldsFlat ps' ++ 10 :: msg))
        (by simp)
      rw [h1, h2, hi]
      exact ⟨i, by simp; ring⟩
    obtain ⟨j, hnl⟩ := hnl10
    have hcond : ¬ (bfind raw 32 (start : Int) < 0 ∨
        bfind raw 10 (start : Int) < bfind raw 32 (start : Int)) := by
      rw [bfind_coe, bfind_coe, hspc, hnl]
      push_cast
      omega
    obtain ⟨k0, krest, hkshape⟩ : ∃ k0 krest, k = k0 :: krest := by
      cases k with
      | nil => exact absurd rfl hk1
      | cons a b => exact ⟨a, b, rfl⟩
    obtain ⟨r0, rest', hrest, hr0⟩ := kvlmFieldsFlat_head ps' msg
      (fun q hq => hgood q (List.mem_cons_of_mem _ hq))
    have hdropS : raw.drop (start + 1)
        = (krest ++ [32]) ++ escNl v ++ 10 :: (kvlmFieldsFlat ps' ++ 10 :: msg) := by
      have hsplitS : raw.drop start
          = [k0] ++ (krest ++ 32 :: (escNl v ++ 10 :: (kvlmFieldsFlat ps' ++ 10 :: msg))) := by
        rw [hdropA, hkshape]
        simp
      have := drop_of_drop_append hsplitS
      simp only [List.length_singleton] at this
      rw [this]
      simp
    have hfuel : v.count 10 + 1 ≤ raw.length + 1 := by
      have hcv : v.count 10 ≤ v.length := List.count_le_length _ _
      have hev := length_le_escNl v
      omega
    have hcont := kvlmContEnd_spec raw (v.count 10) v (krest ++ [32])
      (kvlmFieldsFlat ps' ++ 10 :: msg) start (raw.length + 1) r0 rest' rfl
      hdropS
      (by
        simp only [List.mem_append, not_or, List.mem_singleton]
        constructor
        · intro hcon
          exact hk3 (by rw [hkshape]; exact List.mem_cons_of_mem _ hcon)
        · omega)
      hrest hr0 hfuel
    have hklen : (krest ++ [32]).length = k.length := by
      rw [hkshape]; simp
    rw [hklen] at hcont
    have hnorm : start + 1 + k.length + (escNl v).length
        = start + k.length + 1 + (escNl v).length := by ring
    rw [hnorm] at hcont
    -- slices
    have hkey : pySlice raw (start : Int) ((start + k.length : Nat) : Int) = k :=
      pySlice_segment hstart hdropA
    have hdropV : raw.drop (start + k.length + 1)
        = escNl v ++ (10 :: (kvlmFieldsFlat ps' ++ 10 :: msg)) := by
      have hsplitV : raw.drop start
          = (k ++ [32]) ++ (escNl v ++ 10 :: (kvlmFieldsFlat ps' ++ 10 :: msg)) := by
        rw [hdropA]
        simp
      have := drop_of_drop_append hsplitV
      simp only [List.length_append, List.length_singleton] at this
      rw [← this]
      congr 1
    have hvalue : pySlice raw ((start + k.length + 1 : Nat) : Int)
        ((start + k.length + 1 + (escNl v).length : Nat) : Int) = escNl v :=
      pySlice_segment (by omega) hdropV
    have hcoeA : ((start + k.length : Nat) : Int) + 1
        = ((start + k.length + 1 : Nat) : Int) := by push_cast; ring
    have hcoeC : ((start + k.length + 1 + (escNl v).length : Nat) : Int) + 1
        = ((start + k.length + 1 + (escNl v).length + 1 : Nat) : Int) := by
      push_cast; ring
    have hdropR : raw.drop (start + k.length + 1 + (escNl v).length + 1)
        = kvlmFieldsFlat ps' ++ 10 :: msg := by
      have hsplitR : raw.drop (start + k.length + 1)
          = (escNl v ++ [10]) ++ (kvlmFieldsFlat ps' ++ 10 :: msg) := by
        rw [hdropV]
        simp
      have := drop_of_drop_append hsplitR
      simp only [List.length_append, List.length_singleton] at this
      rw [← this]
      congr 1
    have hrec := ih msg (start + k.length + 1 + (escNl v).length + 1)
      (kvlmInsert dct k v) f' hdropR
      (by omega)
      (fun q hq => hgood q (List.mem_cons_of_mem _ hq))
      (by simp only [List.length_cons] at hf; omega)
    unfold kvlmParseRec
    rw [if_neg hcond, hcont]
    simp only [bfind_coe, hspc, hcoeA, hcoeC, Int.toNat_natCast, hkey, hvalue,
      unescNl_escNl]
    exact hrec

theorem kvlmFieldsFlat_length_ge (ps : List (List Nat × List Nat)) :
    ps.length ≤ (kvlmFieldsFlat ps).length := by
  induction ps with
  | nil => simp [kvlmFieldsFlat]
  | cons p ps' ih =>
    cases p with
    | mk k v =>
      rw [kvlmFieldsFlat_cons]
      simp only [List.length_cons, List.length_append, List.length_singleton]
      omega

/-- Parsing a full well-formed encoder payload: the wrapper supplies enough
fuel because every field occupies at least one byte of the payload. -/
theorem kvlm_parse_spec (ps : List (List Nat × List Nat)) (msg : List Nat)
    (hgood : ∀ p ∈ ps, GoodKey p.1) :
    kvlm_parse (kvlmFieldsFlat ps ++ 10 :: msg)
      = some (kvlmInsertAll [] ps ++ [(none, KvlmVal.single msg)]) := by
  unfold kvlm_parse
  apply kvlmParseRec_spec
  · simp
  · simp
  · exact hgood
  · have h := kvlmFieldsFlat_length_ge ps
    simp only [List.length_append, List.length_cons]
    omega

theorem kvlmValFoldl_multi (acc vs : List (List Nat)) :
    kvlmValFoldl (.multi acc) vs = .multi (acc ++ vs) := by
  induction vs generalizing acc with
  | nil => simp [kvlmValFoldl]
  | cons v vs' ih =>
    unfold kvlmValFoldl at ih ⊢
    simp only [List.foldl_cons, kvlmValAppend]
    rw [ih]
    simp

theorem kvlmValFoldl_single (v0 : List Nat) (vs : List (List Nat)) :
    kvlmValFoldl (.single v0) vs = kvlmValOf (v0 :: vs) := by
  cases vs with
  | nil => rfl
  | cons v1 vs' =>
    unfold kvlmValFoldl
    simp only [List.foldl_cons, kvlmValAppend]
    have := kvlmValFoldl_multi [v0, v1] vs'
    unfold kvlmValFoldl at this
    rw [this]
    rfl

theorem kvlmHasKey_append (d1 d2 : List (Option (List Nat) × KvlmVal)) (k : List Nat) :
    kvlmHasKey (d1 ++ d2) k = (kvlmHasKey d1 k || kvlmHasKey d2 k) := by
  simp [kvlmHasKey, List.any_append]

theorem kvlmInsert_fresh (dct : List (Option (List Nat) × KvlmVal)) (k v : List Nat)
    (h : kvlmHasKey dct k = false) :
    kvlmInsert dct k v = dct ++ [(some k, .single v)] := by
  unfold kvlmInsert
  rw [h]
  simp

theorem kvlmInsert_existing (dct : List (Option (List Nat) × KvlmVal))
    (k v : List Nat) (w : KvlmVal) (h : kvlmHasKey dct k = false) :
    kvlmInsert (dct ++ [(some k, w)]) k v = dct ++ [(some k, kvlmValAppend w v)] := by
  unfold kvlmInsert
  rw [kvlmHasKey_append, h]
  have hone : kvlmHasKey [(some k, w)] k = true := by simp [kvlmHasKey]
  rw [hone]
  simp only [Bool.false_or, if_true]
  rw [List.map_append]
  unfold kvlmHasKey at h
  simp only [List.any_eq_false, decide_eq_true_eq] at h
  congr 1
  · have hall : ∀ p ∈ dct,
        (fun p => if p.1 = some k then (p.1, kvlmValAppend p.2 v) else p) p = id p := by
      intro p hp
      simp only [id_eq]
      rw [if_neg (h p hp)]
    rw [List.map_congr_left hall, List.map_id]
  · simp

theorem kvlmInsertAll_append (dct : List (Option (List Nat) × KvlmVal))
    (ps qs : List (List Nat × List Nat)) :
    kvlmInsertAll dct (ps ++ qs) = kvlmInsertAll (kvlmInsertAll dct ps) qs := by
  unfold kvlmInsertAll
  rw [List.foldl_append]

theorem kvlmInsertAll_values (k : List Nat) (vs : List (List Nat))
    (dct : List (Option (List Nat) × KvlmVal)) (w : KvlmVal)
    (h : kvlmHasKey dct k = false) :
    kvlmInsertAll (dct ++ [(some k, w)]) (vs.map (fun v => (k, v)))
      = dct ++ [(some k, kvlmValFoldl w vs)] := by
  induction vs generalizing w with
  | nil => simp [kvlmInsertAll, kvlmValFoldl]
  | cons v vs' ih =>
    unfold kvlmInsertAll
    simp only [List.map_cons, List.foldl_cons]
    rw [kvlmInsert_existing dct k v w h]
    have := ih (kvlmValAppend w v)
    unfold kvlmInsertAll at this
    rw [this]
    rfl

theorem kvlmInsertAll_group (k : List Nat) (v0 : List Nat) (vs : List (List Nat))
    (dct : List (Option (List Nat) × KvlmVal)) (h : kvlmHasKey dct k = false) :
    kvlmInsertAll dct ((v0 :: vs).map (fun v => (k, v)))
      = dct ++ [(some k, kvlmValOf (v0 :: vs))] := by
  simp only [List.map_cons]
  unfold kvlmInsertAll
  simp only [List.foldl_cons]
  rw [kvlmInsert_fresh dct k v0 h]
  have := kvlmInsertAll_values k vs dct (.single v0) h
  unfold kvlmInsertAll at this
  rw [this, kvlmValFoldl_single]

theorem kvlmInsertAll_groups :
    ∀ (gs : List (List Nat × List (List Nat)))
      (dct : List (Option (List Nat) × KvlmVal)),
      (∀ g ∈ gs, g.2 ≠ []) →
      (∀ g ∈ gs, kvlmHasKey dct g.1 = false) →
      (groupKeys gs).Nodup →
      kvlmInsertAll dct (groupsFlat gs) = dct ++ kvlmOfGroups gs := by
  intro gs
  induction gs with
  | nil => intro dct _ _ _; simp [groupsFlat, kvlmInsertAll, kvlmOfGroups]
  | cons g gs' ih =>
    intro dct hne hfresh hnodup
    obtain ⟨k, vs⟩ := g
    obtain ⟨v0, vs', rfl⟩ : ∃ v0 vs', vs = v0 :: vs' := by
      cases vs with
      | nil => exact absurd rfl (hne (k, []) (List.mem_cons_self _ _))
      | cons a b => exact ⟨a, b, rfl⟩
    have hflat : groupsFlat ((k, v0 :: vs') :: gs')
        = (v0 :: vs').map (fun v => (k, v)) ++ groupsFlat gs' := by
      simp [groupsFlat]
    rw [hflat, kvlmInsertAll_append,
      kvlmInsertAll_group k v0 vs' dct (hfresh (k, v0 :: vs') (List.mem_cons_self _ _))]
    have hnodup' : (groupKeys gs').Nodup := by
      simp only [groupKeys, List.map_cons, List.nodup_cons] at hnodup
      exact hnodup.2
    have hkfresh : ∀ g2 ∈ gs', kvlmHasKey (dct ++ [(some k, kvlmValOf (v0 :: vs'))]) g2.1 = false := by
      intro g2 hg2
      rw [kvlmHasKey_append]
      have h1 := hfresh g2 (List.mem_cons_of_mem _ hg2)
      have h2 : kvlmHasKey [(some k, kvlmValOf (v0 :: vs'))] g2.1 = false := by
        simp only [groupKeys, List.map_cons, List.nodup_cons] at hnodup
        have : k ≠ g2.1 := by
          intro hcon
          exact hnodup.1 (by rw [hcon]; exact List.mem_map_of_mem _ hg2)
        simp [kvlmHasKey]
        exact this
      rw [h1, h2]
      rfl
    rw [ih (dct ++ [(some k, kvlmValOf (v0 :: vs'))])
      (fun g2 hg2 => hne g2 (List.mem_cons_of_mem _ hg2)) hkfresh hnodup']
    simp [kvlmOfGroups]

theorem kvlmFieldsFlat_groupsFlat (gs : List (List Nat × List (List Nat))) :
    kvlmFieldsFlat (groupsFlat gs)
      = (gs.map (fun g => kvlmFieldBytes g.1 g.2)).flatten := by
  induction gs with
  | nil => rfl
  | cons g gs' ih =>
    obtain ⟨k, vs⟩ := g
    have h1 : groupsFlat ((k, vs) :: gs') = vs.map (fun v => (k, v)) ++ groupsFlat gs' := by
      simp [groupsFlat]
    rw [h1]
    have h2 : kvlmFieldsFlat (vs.map (fun v => (k, v)) ++ groupsFlat gs')
        = kvlmFieldsFlat (vs.map (fun v => (k, v))) ++ kvlmFieldsFlat (groupsFlat gs') := by
      simp [kvlmFieldsFlat]
    rw [h2, ih]
    have h3 : kvlmFieldsFlat (vs.map (fun v => (k, v))) = kvlmFieldBytes k vs := by
      simp [kvlmFieldsFlat, kvlmFieldBytes, kvlmFieldOne]
      congr 1
    simp only [List.map_cons, List.flatten_cons, h3]

theorem kvlmValList_valOf {vs : List (List Nat)} (h : vs ≠ []) :
    kvlmValList (kvlmValOf vs) = vs := by
  match vs with
  | [] => exact absurd rfl h
  | [v] => rfl
  | v :: w :: t => rfl

theorem kvlmLookupNone_ofGroups (gs : List (List Nat × List (List Nat)))
    (tail : List (Option (List Nat) × KvlmVal)) :
    kvlmLookupNone (kvlmOfGroups gs ++ tail) = kvlmLookupNone tail := by
  induction gs with
  | nil => rfl
  | cons g gs' ih =>
    have hcons : kvlmOfGroups (g :: gs') = (some g.1, kvlmValOf g.2) :: kvlmOfGroups gs' := rfl
    rw [hcons, List.cons_append]
    have hstep : kvlmLookupNone ((some g.1, kvlmValOf g.2) :: (kvlmOfGroups gs' ++ tail))
        = kvlmLookupNone (kvlmOfGroups gs' ++ tail) := rfl
    rw [hstep]
    exact ih

/-- kvlm_serialize on the dict kvlm_parse builds from grouped fields. -/
theorem kvlm_serialize_ofGroups (gs : List (List Nat × List (List Nat)))
    (msg : List Nat) (hne : ∀ g ∈ gs, g.2 ≠ []) :
    kvlm_serialize (kvlmOfGroups gs ++ [(none, KvlmVal.single msg)])
      = some ((gs.map (fun g => kvlmFieldBytes g.1 g.2)).flatten ++ 10 :: msg) := by
  unfold kvlm_serialize
  rw [kvlmLookupNone_ofGroups]
  simp only [kvlmLookupNone]
  congr 1
  rw [List.map_append]
  simp only [kvlmOfGroups, List.map_map]
  have hmap : ∀ g ∈ gs,
      ((fun p => match p.1 with
        | none => ([] : List Nat)
        | some k => kvlmFieldBytes k (kvlmValList p.2)) ∘
          (fun g => ((some g.1 : Option (List Nat)), kvlmValOf g.2))) g
        = (fun g => kvlmFieldBytes g.1 g.2) g := by
    intro g hg
    simp only [Function.comp_apply]
    rw [kvlmValList_valOf (hne g hg)]
  rw [List.map_congr_left hmap]
  simp

/-- kvlm_parse on a payload built from grouped fields with distinct good
keys: one dict entry per key in first-insertion order, then the message. -/
theorem kvlm_parse_groups (gs : List (List Nat × List (List Nat))) (msg : List Nat)
    (h1 : ∀ g ∈ gs, GoodKey g.1) (h2 : ∀ g ∈ gs, g.2 ≠ [])
    (h3 : (groupKeys gs).Nodup) :
    kvlm_parse ((gs.map (fun g => kvlmFieldBytes g.1 g.2)).flatten ++ 10 :: msg)
      = some (kvlmOfGroups gs ++ [(none, KvlmVal.single msg)]) := by
  rw [← kvlmFieldsFlat_groupsFlat]
  have hgood : ∀ p ∈ groupsFlat gs, GoodKey p.1 := by
    intro p hp
    simp only [groupsFlat, List.mem_flatten, List.mem_map] at hp
    obtain ⟨l, ⟨g, hg, rfl⟩, hpl⟩ := hp
    obtain ⟨v, _, rfl⟩ := List.mem_map.mp hpl
    exact h1 g hg
  rw [kvlm_parse_spec (groupsFlat gs) msg hgood]
  rw [kvlmInsertAll_groups gs [] h2 (fun g _ => rfl) h3]
  rfl

theorem natToBytesBE_length (k n : Nat) : (natToBytesBE k n).length = k := by
  induction k generalizing n with
  | zero => rfl
  | succ m ih => simp [natToBytesBE, ih]

theorem tree_entry_bytes_good {l : GitTreeLeaf} (h : GoodLeaf l) :
    tree_entry_bytes l = some (entryBytesGood l) := by
  obtain ⟨_, _, _, n, hn, hlt⟩ := h
  unfold tree_entry_bytes entryBytesGood leafShaVal
  rw [hn]
  show (if n < 256 ^ 20 then some (l.mode ++ [32] ++ l.path ++ [0] ++ natToBytesBE 20 n)
    else none) = _
  rw [if_pos hlt]
  rfl

theorem tree_parse_one_spec {raw : List Nat} {pos : Nat} {l : GitTreeLeaf}
    {rest : List Nat} (hgood : GoodLeaf l) (hpos : pos ≤ raw.length)
    (hdrop : raw.drop pos = entryBytesGood l ++ rest) :
    tree_parse_one raw pos
      = some (pos + 28 + l.path.length, reLeaf l) := by
  obtain ⟨hm6, hm32, hp0, n, hn, hlt⟩ := hgood
  have hdropA : raw.drop pos
      = l.mode ++ 32 :: (l.path ++ 0 :: (natToBytesBE 20 (leafShaVal l) ++ rest)) := by
    rw [hdrop]
    unfold entryBytesGood
    simp
  have hlenT := length_split_of_drop hpos hdropA
  simp only [List.length_append, List.length_cons, natToBytesBE_length] at hlenT
  have hx : bfindNat raw 32 pos = ((pos + l.mode.length : Nat) : Int) :=
    bfindNat_of_drop hdropA hm32
  have hxmpos : ((pos + l.mode.length : Nat) : Int) - (pos : Int) = 6 := by
    rw [hm6]; push_cast; ring
  have hmode : pySlice raw (pos : Int) ((pos + l.mode.length : Nat) : Int) = l.mode :=
    pySlice_segment hpos hdropA
  have hdropX : raw.drop (pos + l.mode.length)
      = (32 :: l.path) ++ 0 :: (natToBytesBE 20 (leafShaVal l) ++ rest) := by
    have := drop_of_drop_append (u := l.mode) hdropA
    rw [this]
    simp
  have hy : bfindNat raw 0 (pos + l.mode.length)
      = ((pos + l.mode.length + 1 + l.path.length : Nat) : Int) := by
    have h1 := bfindNat_of_drop hdropX (by
      simp only [List.mem_cons, not_or]
      exact ⟨by omega, hp0⟩)
    have h2 : pos + l.mode.length + (32 :: l.path).length
        = pos + l.mode.length + 1 + l.path.length := by
      simp only [List.length_cons]
      omega
    rw [h2] at h1
    exact h1
  have hdropP : raw.drop (pos + l.mode.length + 1)
      = l.path ++ 0 :: (natToBytesBE 20 (leafShaVal l) ++ rest) := by
    have hsplitP : raw.drop pos
        = (l.mode ++ [32]) ++ (l.path ++ 0 :: (natToBytesBE 20 (leafShaVal l) ++ rest)) := by
      rw [hdropA]
      simp
    have := drop_of_drop_append hsplitP
    simp only [List.length_append, List.length_singleton] at this
    rw [← this]
    congr 1
  have hcoeP : ((pos + l.mode.length : Nat) : Int) + 1
      = ((pos + l.mode.length + 1 : Nat) : Int) := by push_cast; ring
  have hpath : pySlice raw ((pos + l.mode.length + 1 : Nat) : Int)
      ((pos + l.mode.length + 1 + l.path.length : Nat) : Int) = l.path :=
    pySlice_segment (by omega) hdropP
  have hdropS : raw.drop (pos + l.mode.length + 1 + l.path.length + 1)
      = natToBytesBE 20 (leafShaVal l) ++ rest := by
    have hsplitH : raw.drop pos
        = (l.mode ++ [32] ++ l.path ++ [0]) ++ (natToBytesBE 20 (leafShaVal l) ++ rest) := by
      rw [hdropA]
      simp
    have := drop_of_drop_append hsplitH
    simp only [List.length_append, List.length_singleton] at this
    rw [← this]
    congr 1
    omega
  have hcoeS1 : ((pos + l.mode.length + 1 + l.path.length : Nat) : Int) + 1
      = ((pos + l.mode.length + 1 + l.path.length + 1 : Nat) : Int) := by
    push_cast; ring
  have hcoeS2 : ((pos + l.mode.length + 1 + l.path.length : Nat) : Int) + 21
      = ((pos + l.mode.length + 1 + l.path.length + 1 + 20 : Nat) : Int) := by
    push_cast; ring
  have hsha : pySlice raw ((pos + l.mode.length + 1 + l.path.length + 1 : Nat) : Int)
      ((pos + l.mode.length + 1 + l.path.length + 1 + 20 : Nat) : Int)
      = natToBytesBE 20 (leafShaVal l) := by
    have := pySlice_segment (by omega) hdropS
    rw [natToBytesBE_length] at this
    exact this
  have hval : bytesToNatBE (natToBytesBE 20 (leafShaVal l)) = leafShaVal l := by
    apply bytesToNatBE_natToBytesBE
    unfold leafShaVal
    rw [hn]
    exact hlt
  simp only [tree_parse_one, bfind_coe, hx, hmode, hcoeP, hy, hcoeS1, hcoeS2,
    hpath, hsha, hval, Int.toNat_natCast]
  rw [if_pos (Or.inr hxmpos), if_neg (by rw [hm6]; omega)]
  have harith : pos + l.mode.length + 1 + l.path.length + 1 + 20
      = pos + 28 + l.path.length := by omega
  rw [harith]
  rfl

theorem entriesBytes_cons (l : GitTreeLeaf) (items : List GitTreeLeaf) :
    entriesBytes (l :: items) = entryBytesGood l ++ entriesBytes items := by
  simp [entriesBytes]

theorem entryBytesGood_length (l : GitTreeLeaf) :
    (entryBytesGood l).length = l.mode.length + 1 + l.path.length + 1 + 20 := by
  unfold entryBytesGood
  simp [natToBytesBE_length]
  omega

theorem treeParseRec_spec (raw : List Nat) :
    ∀ (items : List GitTreeLeaf) (pos f : Nat),
      (∀ l ∈ items, GoodLeaf l) →
      raw.drop pos = entriesBytes items →
      pos ≤ raw.length →
      items.length + 1 ≤ f →
      treeParseRec raw f pos = some (items.map reLeaf) := by
  intro items
  induction items with
  | nil =>
    intro pos f _ hdrop hpos hf
    obtain ⟨f', rfl⟩ : ∃ g, f = g + 1 := ⟨f - 1, by omega⟩
    unfold treeParseRec
    have hnil : ¬ pos < raw.length := by
      have hlen : (raw.drop pos).length = raw.length - pos := List.length_drop _ _
      rw [hdrop] at hlen
      simp only [entriesBytes, List.map_nil, List.flatten_nil, List.length_nil] at hlen
      omega
    rw [if_neg hnil]
    rfl
  | cons l items' ih =>
    intro pos f hgood hdrop hpos hf
    obtain ⟨f', rfl⟩ : ∃ g, f = g + 1 := ⟨f - 1, by omega⟩
    have hgl : GoodLeaf l := hgood l (List.mem_cons_self _ _)
    rw [entriesBytes_cons] at hdrop
    have hlen := length_split_of_drop hpos hdrop
    have hel := entryBytesGood_length l
    have hm6 : l.mode.length = 6 := hgl.1
    have hone := tree_parse_one_spec hgl hpos hdrop
    unfold treeParseRec
    rw [if_pos (by omega), hone]
    have hdrop2 : raw.drop (pos + 28 + l.path.length) = entriesBytes items' := by
      have := drop_of_drop_append (u := entryBytesGood l) hdrop
      rw [← this]
      congr 1
      omega
    show (treeParseRec raw f' (pos + 28 + l.path.length)).map (reLeaf l :: ·)
        = some (List.map reLeaf (l :: items'))
    rw [ih (pos + 28 + l.path.length) f'
      (fun q hq => hgood q (List.mem_cons_of_mem _ hq)) hdrop2 (by omega)
      (by simp only [List.length_cons] at hf; omega)]
    rfl

theorem entriesBytes_length_ge (items : List GitTreeLeaf) :
    items.length ≤ (entriesBytes items).length := by
  induction items with
  | nil => simp [entriesBytes]
  | cons l items' ih =>
    rw [entriesBytes_cons]
    have := entryBytesGood_length l
    simp only [List.length_cons, List.length_append]
    omega

/-- tree_parse recovers the leaves of a well-formed entry sequence in
order, re-rendering each digest. -/
theorem tree_parse_spec (items : List GitTreeLeaf)
    (hgood : ∀ l ∈ items, GoodLeaf l) :
    tree_parse (entriesBytes items) = some (items.map reLeaf) := by
  unfold tree_parse
  apply treeParseRec_spec _ items 0 _ hgood (by simp) (by simp)
  have := entriesBytes_length_ge items
  omega

theorem seqBytes_all_good (items : List GitTreeLeaf)
    (h : ∀ l ∈ items, GoodLeaf l) :
    seqBytes (items.map tree_entry_bytes) = some (entriesBytes items) := by
  induction items with
  | nil => rfl
  | cons l items' ih =>
    simp only [List.map_cons, seqBytes,
      tree_entry_bytes_good (h l (List.mem_cons_self _ _))]
    rw [ih (fun q hq => h q (List.mem_cons_of_mem _ hq))]
    rw [entriesBytes_cons]
    rfl

theorem sorted_tree_sorted_items (items : List GitTreeLeaf) :
    List.Sorted leafLe (tree_sorted_items items) :=
  List.sorted_insertionSort leafLe items

theorem tree_sorted_items_perm (items : List GitTreeLeaf) :
    (tree_sorted_items items).Perm items :=
  List.perm_insertionSort leafLe items

theorem tree_leaf_sort_key_reLeaf (l : GitTreeLeaf) :
    tree_leaf_sort_key (reLeaf l) = tree_leaf_sort_key l := rfl

theorem leafShaVal_reLeaf (l : GitTreeLeaf) : leafShaVal (reLeaf l) = leafShaVal l := by
  unfold leafShaVal reLeaf
  simp only
  rw [hexToNat?_natToHex40]
  rfl

theorem entryBytesGood_reLeaf (l : GitTreeLeaf) :
    entryBytesGood (reLeaf l) = entryBytesGood l := by
  unfold entryBytesGood
  rw [leafShaVal_reLeaf]
  rfl

theorem goodLeaf_reLeaf {l : GitTreeLeaf} (h : GoodLeaf l) : GoodLeaf (reLeaf l) := by
  obtain ⟨h1, h2, h3, n, hn, hlt⟩ := h
  refine ⟨h1, h2, h3, n, ?_, hlt⟩
  show hexToNat? (natToHex40 (leafShaVal l)) = some n
  have : leafShaVal l = n := by unfold leafShaVal; rw [hn]; rfl
  rw [this, hexToNat?_natToHex40]

theorem tree_sorted_items_of_sorted {items : List GitTreeLeaf}
    (h : List.Sorted leafLe items) : tree_sorted_items items = items :=
  List.Sorted.insertionSort_eq h

/-- tree_serialize_bytes on well-formed leaves: it succeeds and emits the
entries in canonical sorted order. -/
theorem tree_serialize_bytes_good {items : List GitTreeLeaf}
    (h : ∀ l ∈ items, GoodLeaf l) :
    tree_serialize_bytes items = some (entriesBytes (tree_sorted_items items)) := by
  unfold tree_serialize_bytes
  apply seqBytes_all_good
  intro l hl
  exact h l ((tree_sorted_items_perm items).mem_iff.mp hl)

/-- Full byte-level round trip of a well-formed sorted tree payload. -/
theorem tree_roundtrip_good {items : List GitTreeLeaf}
    (h : ∀ l ∈ items, GoodLeaf l) :
    (tree_serialize_bytes items).bind
        (fun bs => (tree_parse bs).bind tree_serialize_bytes)
      = tree_serialize_bytes items := by
  rw [tree_serialize_bytes_good h]
  have hgs : ∀ l ∈ tree_sorted_items items, GoodLeaf l :=
    fun l hl => h l ((tree_sorted_items_perm items).mem_iff.mp hl)
  rw [Option.some_bind, tree_parse_spec _ hgs, Option.some_bind]
  have hsorted2 : List.Sorted leafLe ((tree_sorted_items items).map reLeaf) := by
    rw [List.Sorted]
    rw [List.pairwise_map]
    have := sorted_tree_sorted_items items
    rw [List.Sorted] at this
    apply this.imp
    intro a b hab
    unfold leafLe
    rw [tree_leaf_sort_key_reLeaf, tree_leaf_sort_key_reLeaf]
    exact hab
  have hgood2 : ∀ l ∈ (tree_sorted_items items).map reLeaf, GoodLeaf l := by
    intro l hl
    obtain ⟨q, hq, rfl⟩ := List.mem_map.mp hl
    exact goodLeaf_reLeaf (hgs q hq)
  rw [tree_serialize_bytes_good hgood2, tree_sorted_items_of_sorted hsorted2]
  have hinv : entriesBytes ((tree_sorted_items items).map reLeaf)
      = entriesBytes (tree_sorted_items items) := by
    unfold entriesBytes
    rw [List.map_map]
    apply congrArg
    apply List.map_congr_left
    intro l _
    simp only [Function.comp_apply]
    exact entryBytesGood_reLeaf l
  rw [hinv]

/-!
Framing: reading back a framed payload.
-/

theorem natToDec_not_mem_zero (n : Nat) : (0 : Nat) ∉ natToDec n := by
  intro h
  have := natToDec_all_digit n 0 h
  omega

theorem natToDec_not_mem_space (n : Nat) : (32 : Nat) ∉ natToDec n := by
  intro h
  have := natToDec_all_digit n 32 h
  omega

/-- Unframing the header that object_write builds: the type tag is
recovered, the declared length check passes, and the payload after the NUL
is dispatched unchanged. -/
theorem object_read_raw_frame (fmt data : List Nat) (h32 : 32 ∉ fmt) :
    object_read_raw (fmt ++ [32] ++ natToDec data.length ++ [0] ++ data)
      = object_dispatch fmt data := by
  set n := data.length with hn
  set raw := fmt ++ [32] ++ natToDec n ++ [0] ++ data with hraw
  have hshape : raw = fmt ++ 32 :: (natToDec n ++ 0 :: data) := by
    rw [hraw]; simp
  have hlenraw : raw.length = fmt.length + 1 + (natToDec n).length + 1 + n := by
    rw [hshape]
    simp only [List.length_append, List.length_cons]
    omega
  have hd0 : raw.drop 0 = fmt ++ 32 :: (natToDec n ++ 0 :: data) := by
    rw [List.drop_zero, hshape]
  have hx : bfind raw 32 0 = ((fmt.length : Nat) : Int) := by
    have h1 := bfindNat_of_drop hd0 h32
    simp only [Nat.zero_add] at h1
    have hb : bfind raw 32 0 = bfindNat raw 32 0 := by
      unfold bfind
      norm_num
    rw [hb, h1]
  have hfmt : pySlice raw 0 ((fmt.length : Nat) : Int) = fmt := by
    have h1 := pySlice_segment (s := 0) (by omega) hd0
    simp only [Nat.zero_add, Nat.cast_zero] at h1
    exact h1
  have hdropF : raw.drop fmt.length = (32 :: natToDec n) ++ 0 :: data := by
    have h1 := drop_of_drop_append hd0
    simp only [Nat.zero_add] at h1
    rw [h1]
    simp
  have hy : bfindNat raw 0 fmt.length
      = ((fmt.length + (1 + (natToDec n).length) : Nat) : Int) := by
    have h1 := bfindNat_of_drop hdropF (by
      simp only [List.mem_cons, not_or]
      exact ⟨by omega, natToDec_not_mem_zero n⟩)
    have harith : fmt.length + (32 :: natToDec n).length
        = fmt.length + (1 + (natToDec n).length) := by
      simp only [List.length_cons]
      omega
    rw [harith] at h1
    exact h1
  have hsize : pySlice raw ((fmt.length : Nat) : Int)
      ((fmt.length + (1 + (natToDec n).length) : Nat) : Int) = 32 :: natToDec n := by
    have h1 := pySlice_segment (by omega) hdropF
    have harith : fmt.length + (32 :: natToDec n).length
        = fmt.length + (1 + (natToDec n).length) := by
      simp only [List.length_cons]
      omega
    rw [harith] at h1
    exact h1
  have hdropP : raw.drop (fmt.length + (1 + (natToDec n).length) + 1) = data := by
    have hfd : raw.drop fmt.length = ((32 :: natToDec n) ++ [0]) ++ data := by
      rw [hdropF]; simp
    have h1 := drop_of_drop_append hfd
    have harith : fmt.length + ((32 :: natToDec n) ++ [0]).length
        = fmt.length + (1 + (natToDec n).length) + 1 := by
      simp only [List.length_append, List.length_cons, List.length_singleton,
        List.length_nil]
      omega
    rw [harith] at h1
    exact h1
  have hcoeY : ((fmt.length + (1 + (natToDec n).length) : Nat) : Int) + 1
      = ((fmt.length + (1 + (natToDec n).length) + 1 : Nat) : Int) := by
    push_cast; ring
  have hpay : pySlice raw ((fmt.length + (1 + (natToDec n).length) + 1 : Nat) : Int)
      (raw.length : Int) = data := by
    rw [pySlice_drop, hdropP]
  simp only [object_read_raw, hx, bfind_coe, hy, hfmt, hsize, hcoeY, hpay,
    pyInt?_space_natToDec]
  rw [if_neg (by push_cast; omega)]

theorem obj_fmt_not_space (obj : GitObject) : 32 ∉ obj_fmt obj := by
  cases obj with
  | blob d => show (32 : Nat) ∉ blobTag; decide
  | commit k => show (32 : Nat) ∉ commitTag; decide
  | tag k => show (32 : Nat) ∉ tagTag; decide
  | tree t => show (32 : Nat) ∉ treeTag; decide

theorem storeLookup_cons_self (p : String) (v : List Nat) (st : Store) :
    storeLookup ((p, v) :: st) p = some v := by
  unfold storeLookup
  rw [if_pos rfl]

theorem object_dispatch_of_from_data {fmt data : List Nat} {obj : GitObject}
    (h : object_from_data fmt data = some obj) :
    object_dispatch fmt data = .ok obj := by
  unfold object_from_data at h
  unfold object_dispatch
  by_cases h1 : fmt = commitTag
  · rw [if_pos h1] at h ⊢
    cases hp : kvlm_parse data with
    | none => rw [hp] at h; cases h
    | some d => rw [hp] at h; simp at h; rw [← h]
  · rw [if_neg h1] at h ⊢
    by_cases h2 : fmt = treeTag
    · rw [if_pos h2] at h ⊢
      cases hp : tree_parse data with
      | none => rw [hp] at h; cases h
      | some t => rw [hp] at h; simp at h; rw [← h]
    · rw [if_neg h2] at h ⊢
      by_cases h3 : fmt = tagTag
      · rw [if_pos h3] at h
        cases h
      · rw [if_neg h3] at h ⊢
        by_cases h4 : fmt = blobTag
        · rw [if_pos h4] at h ⊢
          simp at h
          rw [← h]
        · rw [if_neg h4] at h
          cases h

theorem obj_fmt_of_from_data {fmt data : List Nat} {obj : GitObject}
    (h : object_from_data fmt data = some obj) : obj_fmt obj = fmt := by
  unfold object_from_data at h
  by_cases h1 : fmt = commitTag
  · rw [if_pos h1] at h
    cases hp : kvlm_parse data with
    | none => rw [hp] at h; cases h
    | some d => rw [hp] at h; simp at h; rw [← h, h1]; rfl
  · rw [if_neg h1] at h
    by_cases h2 : fmt = treeTag
    · rw [if_pos h2] at h
      cases hp : tree_parse data with
      | none => rw [hp] at h; cases h
      | some t => rw [hp] at h; simp at h; rw [← h, h2]; rfl
    · rw [if_neg h2] at h
      by_cases h3 : fmt = tagTag
      · rw [if_pos h3] at h
        cases h
      · rw [if_neg h3] at h
        by_cases h4 : fmt = blobTag
        · rw [if_pos h4] at h
          simp at h
          rw [← h, h4]
          rfl
        · rw [if_neg h4] at h
          cases h

/-- Writing an object to a store that does not yet hold its digest file and
reading the digest back: the stored frame inflates to the original framing
and dispatches the original payload. -/
theorem object_write_then_read (zc zd : List Nat → List Nat)
    (hz : ∀ b, zd (zc b) = b) (sha1hex : List Nat → String)
    (obj : GitObject) (data : List Nat) (st : Store)
    (hser : obj_serialize obj = some data)
    (hfresh : storeLookup st
      (objPath (sha1hex (obj_fmt obj ++ [32] ++ natToDec data.length ++ [0] ++ data)))
        = none) :
    ∃ sha st1, object_write zc sha1hex obj (some st) = some (sha, some st1) ∧
      object_read zd st1 sha = object_dispatch (obj_fmt obj) data := by
  refine ⟨sha1hex (obj_fmt obj ++ [32] ++ natToDec data.length ++ [0] ++ data),
    (objPath (sha1hex (obj_fmt obj ++ [32] ++ natToDec data.length ++ [0] ++ data)),
      zc (obj_fmt obj ++ [32] ++ natToDec data.length ++ [0] ++ data)) :: st, ?_, ?_⟩
  · unfold object_write
    rw [hser]
    simp only [hfresh]
  · unfold object_read
    simp only [storeLookup_cons_self]
    rw [hz]
    exact object_read_raw_frame _ _ (obj_fmt_not_space obj)

/-!
Lemmas for repo_create.
-/

theorem mem_properPrefixes_self {p : List String} (h : p ≠ []) :
    p ∈ properPrefixes p := by
  unfold properPrefixes
  have hlen : 0 < p.length := List.length_pos.mpr h
  refine List.mem_map.mpr ⟨p.length - 1, ?_, ?_⟩
  · rw [List.mem_range]
    omega
  · have : p.length - 1 + 1 = p.length := by omega
    rw [this, List.take_length]

theorem fsMakedirs_dirs_mono {fs fs2 : FS} {p : List String}
    (h : fsMakedirs fs p = some fs2) :
    (∀ d, fsIsDir fs d = true → fsIsDir fs2 d = true) ∧ fs2.files = fs.files := by
  unfold fsMakedirs at h
  split at h
  · cases h
  · split at h
    · cases h
    · cases h
      constructor
      · intro d hd
        unfold fsIsDir at hd ⊢
        simp only [List.any_eq_true] at hd ⊢
        obtain ⟨x, hx, hxd⟩ := hd
        exact ⟨x, List.mem_append_left _ hx, hxd⟩
      · rfl

theorem fsMakedirs_isDir_self {fs fs2 : FS} {p : List String} (hne : p ≠ [])
    (h : fsMakedirs fs p = some fs2) : fsIsDir fs2 p = true := by
  unfold fsMakedirs at h
  split at h
  · cases h
  · split at h
    · cases h
    · rename_i hex _
      cases h
      unfold fsIsDir
      simp only [List.any_eq_true]
      refine ⟨p, List.mem_append_right _ ?_, by simp⟩
      rw [List.mem_filter]
      refine ⟨mem_properPrefixes_self hne, ?_⟩
      have hdir : fsIsDir fs p = false := by
        have hfe : fsExists fs p = false := by
          cases hfe : fsExists fs p
          · rfl
          · exact absurd hfe hex
        unfold fsExists at hfe
        exact (Bool.or_eq_false_iff.mp hfe).1
      show (!fsIsDir fs p) = true
      rw [hdir]
      rfl

theorem repoDirMk_spec {fs fs2 : FS} {gitdir segs : List String}
    (hne : gitdir ++ segs ≠ []) (h : repoDirMk fs gitdir segs = some fs2) :
    (∀ d, fsIsDir fs d = true → fsIsDir fs2 d = true) ∧
      fsIsDir fs2 (gitdir ++ segs) = true ∧ fs2.files = fs.files := by
  simp only [repoDirMk] at h
  split at h
  · split at h
    · rename_i hd
      cases h
      exact ⟨fun d hdd => hdd, hd, rfl⟩
    · cases h
  · have hmono := fsMakedirs_dirs_mono h
    exact ⟨hmono.1, fsMakedirs_isDir_self hne h, hmono.2⟩

theorem find?_filter_ne (files : List (List String × String)) (p q : List String)
    (hne : q ≠ p) :
    (files.filter (fun e => e.1 ≠ p)).find? (fun e => e.1 = q)
      = files.find? (fun e => e.1 = q) := by
  induction files with
  | nil => rfl
  | cons e rest ih =>
    simp only [List.filter_cons, decide_not] at ih ⊢
    by_cases hep : e.1 = p
    · have h2 : (decide (e.1 = q)) = false := by
        simp only [decide_eq_false_iff_not]
        intro hcon
        exact hne (by rw [← hcon, hep])
      rw [if_neg (by simp [hep]), ih, List.find?_cons, h2]
    · rw [if_pos (by simp [hep]), List.find?_cons, List.find?_cons, ih]

theorem fsWrite_spec {fs fs2 : FS} {p : List String} {c : String}
    (h : fsWrite fs p c = some fs2) :
    fs2.dirs = fs.dirs ∧ fsFileContent fs2 p = some c ∧
      ∀ q, q ≠ p → fsFileContent fs2 q = fsFileContent fs q := by
  simp only [fsWrite] at h
  split at h
  · cases h
  · split at h
    · cases h
    · cases h
      refine ⟨rfl, ?_, ?_⟩
      · unfold fsFileContent
        simp [List.find?_cons]
      · intro q hq
        unfold fsFileContent
        simp only
        rw [List.find?_cons]
        have h2 : (decide ((p, c).1 = q)) = false := by
          simp only [decide_eq_false_iff_not]
          exact fun hcon => hq hcon.symm
        rw [h2]
        rw [find?_filter_ne fs.files p q hq]

theorem fsIsDir_congr_dirs {a b : FS} (h : a.dirs = b.dirs) (d : List String) :
    fsIsDir a d = fsIsDir b d := by
  unfold fsIsDir
  rw [h]

theorem fsFileContent_congr_files {a b : FS} (h : a.files = b.files)
    (p : List String) : fsFileContent a p = fsFileContent b p := by
  unfold fsFileContent
  rw [h]

theorem append_singleton_ne (g : List String) {a b : String} (hab : a ≠ b) :
    g ++ [a] ≠ g ++ [b] := by
  intro hcon
  have h1 := List.append_cancel_left hcon
  simp at h1
  exact hab h1

/-- Everything repo_create guarantees about the filesystem it returns. -/
theorem repo_create_post {fs : FS} {path : List String} {fs' : FS}
    (h : repo_create fs path = some fs') :
    fsIsDir fs' (path ++ [".git", "branches"]) = true ∧
    fsIsDir fs' (path ++ [".git", "objects"]) = true ∧
    fsIsDir fs' (path ++ [".git", "refs", "tags"]) = true ∧
    fsIsDir fs' (path ++ [".git", "refs", "heads"]) = true ∧
    fsFileContent fs' (path ++ [".git", "description"]) = some descriptionText ∧
    fsFileContent fs' (path ++ [".git", "HEAD"]) = some headText ∧
    fsFileContent fs' (path ++ [".git", "config"])
      = some (iniWrite repo_default_config) := by
  simp only [repo_create] at h
  split at h
  · cases h
  · obtain ⟨fs1, h1, h⟩ := Option.bind_eq_some.mp h
    obtain ⟨fs2, h2, h⟩ := Option.bind_eq_some.mp h
    obtain ⟨fs3, h3, h⟩ := Option.bind_eq_some.mp h
    obtain ⟨fs4, h4, h⟩ := Option.bind_eq_some.mp h
    obtain ⟨fs5, h5, h⟩ := Option.bind_eq_some.mp h
    obtain ⟨fs6, h6, h⟩ := Option.bind_eq_some.mp h
    obtain ⟨fs7, h7, h8⟩ := Option.bind_eq_some.mp h
    have s2 := repoDirMk_spec (by simp) h2
    have s3 := repoDirMk_spec (by simp) h3
    have s4 := repoDirMk_spec (by simp) h4
    have s5 := repoDirMk_spec (by simp) h5
    have w6 := fsWrite_spec h6
    have w7 := fsWrite_spec h7
    have w8 := fsWrite_spec h8
    have hassoc : ∀ s : List String,
        (path ++ [".git"]) ++ s = path ++ (".git" :: s) := by
      intro s
      rw [List.append_assoc]
      rfl
    have hdir67 : ∀ d, fsIsDir fs5 d = fsIsDir fs' d := by
      intro d
      rw [← fsIsDir_congr_dirs w6.1 d, ← fsIsDir_congr_dirs w7.1 d,
        ← fsIsDir_congr_dirs w8.1 d]
    refine ⟨?_, ?_, ?_, ?_, ?_, ?_, ?_⟩
    · rw [← hdir67]
      rw [← hassoc]
      exact s5.1 _ (s4.1 _ (s3.1 _ s2.2.1))
    · rw [← hdir67, ← hassoc]
      exact s5.1 _ (s4.1 _ s3.2.1)
    · rw [← hdir67, ← hassoc]
      exact s5.1 _ s4.2.1
    · rw [← hdir67, ← hassoc]
      exact s5.2.1
    · rw [← hassoc]
      rw [w8.2.2 _ (append_singleton_ne _ (by decide)),
        w7.2.2 _ (append_singleton_ne _ (by decide))]
      exact w6.2.1
    · rw [← hassoc]
      rw [w8.2.2 _ (append_singleton_ne _ (by decide))]
      exact w7.2.1
    · rw [← hassoc]
      exact w8.2.1

/-- Parsing an entry whose mode is the five digits 40000: the mode is
normalized by a leading zero byte and the leaf equals the one parsed from
the corresponding six-digit entry. -/
theorem tree_parse_one_five (path sha20 rest : List Nat)
    (hp0 : 0 ∉ path) (hlen : sha20.length = 20) :
    tree_parse_one ([52, 48, 48, 48, 48] ++ [32] ++ path ++ [0] ++ sha20 ++ rest) 0
      = some (27 + path.length,
        ⟨[48, 52, 48, 48, 48, 48], path, natToHex40 (bytesToNatBE sha20)⟩) := by
  set raw := [52, 48, 48, 48, 48] ++ [32] ++ path ++ [0] ++ sha20 ++ rest with hraw
  have hshape : raw = [52, 48, 48, 48, 48] ++ 32 :: (path ++ 0 :: (sha20 ++ rest)) := by
    rw [hraw]; simp
  have hd0 : raw.drop 0 = [52, 48, 48, 48, 48] ++ 32 :: (path ++ 0 :: (sha20 ++ rest)) := by
    rw [List.drop_zero, hshape]
  have hlenraw : raw.length = 5 + 1 + path.length + 1 + 20 + rest.length := by
    rw [hshape]
    simp only [List.length_append, List.length_cons, List.length_nil]
    omega
  have hx : bfindNat raw 32 0 = ((5 : Nat) : Int) := by
    have h1 := bfindNat_of_drop hd0 (by decide)
    simpa using h1
  have hmode : pySlice raw (((0 : Nat) : Int)) ((5 : Nat) : Int)
      = [52, 48, 48, 48, 48] := by
    have h1 := pySlice_segment (s := 0) (by omega) hd0
    simp only [Nat.zero_add, List.length_cons, List.length_nil] at h1
    exact h1
  have hdropM : raw.drop 5 = (32 :: path) ++ 0 :: (sha20 ++ rest) := by
    have h1 := drop_of_drop_append hd0
    simp only [Nat.zero_add, List.length_cons, List.length_nil] at h1
    rw [h1]
    simp
  have hy : bfindNat raw 0 5 = ((5 + (1 + path.length) : Nat) : Int) := by
    have h1 := bfindNat_of_drop hdropM (by
      simp only [List.mem_cons, not_or]
      exact ⟨by omega, hp0⟩)
    have h2 : 5 + (32 :: path).length = 5 + (1 + path.length) := by
      simp only [List.length_cons]
      omega
    rw [h2] at h1
    exact h1
  have hdropP : raw.drop (5 + 1) = path ++ 0 :: (sha20 ++ rest) := by
    have hfd : raw.drop 5 = [32] ++ (path ++ 0 :: (sha20 ++ rest)) := by
      rw [hdropM]
      rfl
    have h1 := drop_of_drop_append hfd
    simp only [List.length_singleton] at h1
    exact h1
  have hcoeP : ((5 : Nat) : Int) + 1 = ((5 + 1 : Nat) : Int) := by push_cast; try ring
  have hnorm : 5 + (1 + path.length) = 5 + 1 + path.length := by omega
  have hpath : pySlice raw ((5 + 1 : Nat) : Int)
      ((5 + 1 + path.length : Nat) : Int) = path :=
    pySlice_segment (by omega) hdropP
  have hdropS : raw.drop (5 + 1 + path.length + 1) = sha20 ++ rest := by
    have hfd : raw.drop (5 + 1) = (path ++ [0]) ++ (sha20 ++ rest) := by
      rw [hdropP]; simp
    have h1 := drop_of_drop_append hfd
    have h2 : 5 + 1 + (path ++ [0]).length = 5 + 1 + path.length + 1 := by
      simp only [List.length_append, List.length_singleton]
      omega
    rw [h2] at h1
    exact h1
  have hcoeS1 : ((5 + 1 + path.length : Nat) : Int) + 1
      = ((5 + 1 + path.length + 1 : Nat) : Int) := by push_cast; try ring
  have hcoeS2 : ((5 + 1 + path.length : Nat) : Int) + 21
      = ((5 + 1 + path.length + 1 + 20 : Nat) : Int) := by push_cast; try ring
  have hsha : pySlice raw ((5 + 1 + path.length + 1 : Nat) : Int)
      ((5 + 1 + path.length + 1 + 20 : Nat) : Int) = sha20 := by
    have h1 := pySlice_segment (by omega) hdropS
    rw [hlen] at h1
    exact h1
  simp only [tree_parse_one, bfind_coe, hx, hmode, hcoeP, hy, hnorm, hcoeS1,
    hcoeS2, hpath, hsha, Int.toNat_natCast]
  rw [if_pos (by norm_num)]
  rw [if_pos (by decide)]
  have harith : 5 + 1 + path.length + 1 + 20 = 27 + path.length := by omega
  rw [harith]

theorem object_dispatch_ne_malformed (fmt data : List Nat) :
    object_dispatch fmt data ≠ .error .malformed := by
  unfold object_dispatch
  intro hcon
  split_ifs at hcon <;>
    first
      | (revert hcon; cases kvlm_parse data <;> intro hcon <;> cases hcon)
      | (revert hcon; cases tree_parse data <;> intro hcon <;> cases hcon)

theorem kvlmLookupNone_none {d : List (Option (List Nat) × KvlmVal)}
    (h : ∀ p ∈ d, p.1 ≠ none) : kvlmLookupNone d = none := by
  induction d with
  | nil => rfl
  | cons p rest ih =>
    obtain ⟨k, v⟩ := p
    cases k with
    | none => exact absurd rfl (h (none, v) (List.mem_cons_self _ _))
    | some kk =>
      have hstep : kvlmLookupNone ((some kk, v) :: rest) = kvlmLookupNone rest := rfl
      rw [hstep]
      exact ih (fun q hq => h q (List.mem_cons_of_mem _ hq))

/-!
Claims.
-/

/-- C1 counterexample.  The claim quantifies over every byte payload, but
for the commit tag the payload "a 1\nb 2\na 3\n\nm" comes back from the
store with its fields regrouped as "a 1\na 3\nb 2\n\nm": object_hash
constructs the object, object_write stores it, object_read returns an
object whose serialized payload differs from the original. -/
theorem c1_roundtrip_counterexample :
    (Option.bind (object_from_data commitTag
        [97, 32, 49, 10, 98, 32, 50, 10, 97, 32, 51, 10, 10, 109])
      (fun obj =>
        Option.bind (object_write id
            (fun _ => "0000000000000000000000000000000000000000") obj (some []))
          (fun r =>
            match r.2 with
            | some st =>
              match object_read id st r.1 with
              | .ok obj2 => obj_serialize obj2
              | .error _ => none
            | none => none)))
      = some [97, 32, 49, 10, 97, 32, 51, 10, 98, 32, 50, 10, 10, 109]
    ∧ ([97, 32, 49, 10, 97, 32, 51, 10, 98, 32, 50, 10, 10, 109] : List Nat)
        ≠ [97, 32, 49, 10, 98, 32, 50, 10, 97, 32, 51, 10, 10, 109] := by
  constructor
  · rfl
  · decide

/-- C1 amended.  Writing an object built from (T, P) and reading the digest
back yields an object with type tag T whose serialized payload is P,
provided constructing from (T, P) succeeds and the codec for T round-trips
P (serialize after deserialize is the identity on P); for blobs this holds
for every payload.  The store must not already hold a different file at
the digest path, and zlib decompression inverts compression.  The tag case
of the original claim is unperformable: the class GitTag is never defined,
so constructing an object from (tag, P) fails for every payload — the last
conjunct — and the round trip holds only for blob, commit and tree. -/
theorem c1_object_store_roundtrip_amended
    (zc zd : List Nat → List Nat) (sha1hex : List Nat → String)
    (hz : ∀ b, zd (zc b) = b)
    (fmt data : List Nat) (obj : GitObject) (st : Store)
    (hobj : object_from_data fmt data = some obj)
    (hser : obj_serialize obj = some data)
    (hfresh : storeLookup st
      (objPath (sha1hex (fmt ++ [32] ++ natToDec data.length ++ [0] ++ data)))
        = none) :
    (∃ sha st1, object_write zc sha1hex obj (some st) = some (sha, some st1) ∧
      ∃ obj2, object_read zd st1 sha = .ok obj2 ∧ obj_fmt obj2 = fmt ∧
        obj_serialize obj2 = some data) ∧
    ∀ q : List Nat, object_from_data tagTag q = none := by
  have hfmt := obj_fmt_of_from_data hobj
  rw [← hfmt] at hfresh
  obtain ⟨sha, st1, hw, hr⟩ :=
    object_write_then_read zc zd hz sha1hex obj data st hser hfresh
  refine ⟨⟨sha, st1, hw, obj, ?_, hfmt, hser⟩, fun _ => rfl⟩
  rw [hr, hfmt]
  exact object_dispatch_of_from_data hobj

/-- C1 witness: the amended statement applied to a blob "hi" written into
an empty store with the identity compressor. -/
theorem c1_object_store_roundtrip_witness :
    (∃ sha st1, object_write id (fun _ => "0000000000000000000000000000000000000000")
        (GitObject.blob [104, 105]) (some []) = some (sha, some st1) ∧
      ∃ obj2, object_read id st1 sha = .ok obj2 ∧ obj_fmt obj2 = blobTag ∧
        obj_serialize obj2 = some [104, 105]) ∧
    ∀ q : List Nat, object_from_data tagTag q = none :=
  c1_object_store_roundtrip_amended id id
    (fun _ => "0000000000000000000000000000000000000000") (fun _ => rfl)
    blobTag [104, 105] (GitObject.blob [104, 105]) [] rfl rfl rfl

/-- C2.  For every commit or tag payload a correct encoder can produce —
fields key SP value LF grouped by key in first-insertion order with
distinct nonempty keys free of space and newline, values escaped by
replacing LF with LF SP, then a blank line and the message —
kvlm_serialize (kvlm_parse P) = P: un-escaping and re-escaping are exact
inverses, emission order equals first-insertion order, and the message is
reproduced verbatim. -/
theorem c2_kvlm_roundtrip (gs : List (List Nat × List (List Nat)))
    (msg P : List Nat)
    (h1 : ∀ g ∈ gs, GoodKey g.1) (h2 : ∀ g ∈ gs, g.2 ≠ [])
    (h3 : (groupKeys gs).Nodup)
    (hP : P = (gs.map (fun g => kvlmFieldBytes g.1 g.2)).flatten ++ 10 :: msg) :
    (kvlm_parse P).bind kvlm_serialize = some P := by
  subst hP
  rw [kvlm_parse_groups gs msg h1 h2 h3, Option.some_bind]
  exact kvlm_serialize_ofGroups gs msg h2

/-- C2 witness: a commit-like payload with a tree field whose value holds
an escaped newline and two parent fields, then a message. -/
theorem c2_kvlm_roundtrip_witness :
    (kvlm_parse (([([116, 114, 101, 101], [[97, 10, 98]]),
        ([112, 97, 114, 101, 110, 116], [[49], [50]])].map
          (fun g => kvlmFieldBytes g.1 g.2)).flatten ++ 10 :: [109, 109])).bind
        kvlm_serialize
      = some (([([116, 114, 101, 101], [[97, 10, 98]]),
        ([112, 97, 114, 101, 110, 116], [[49], [50]])].map
          (fun g => kvlmFieldBytes g.1 g.2)).flatten ++ 10 :: [109, 109]) :=
  c2_kvlm_roundtrip _ _ _ (by unfold GoodKey; decide) (by decide) (by decide)
    rfl

/-- C3 counterexample.  The claim quantifies over every tree object, but an
object holding the raw five-digit mode 40000 serializes to a five-byte
mode, is normalized to 040000 by the decoder, and so reserializes to
different bytes. -/
theorem c3_tree_roundtrip_counterexample :
    (tree_serialize_bytes [⟨[52, 48, 48, 48, 48], [97],
        List.replicate 39 48 ++ [55]⟩]).bind
      (fun bs => (tree_parse bs).bind tree_serialize_bytes)
      ≠ tree_serialize_bytes [⟨[52, 48, 48, 48, 48], [97],
        List.replicate 39 48 ++ [55]⟩]
    ∧ (tree_serialize_bytes [⟨[52, 48, 48, 48, 48], [97],
        List.replicate 39 48 ++ [55]⟩]).isSome := by
  constructor
  · decide
  · decide

/-- C3 amended.  For every tree object whose entries are in the normalized
decoder form — six-byte space-free mode, NUL-free path, hex digest of at
most twenty bytes — serializing, parsing the bytes back and serializing
again reproduces the same bytes, and the emitted entry order is the sorted
order under the canonical key. -/
theorem c3_tree_roundtrip_amended (items : List GitTreeLeaf)
    (h : ∀ l ∈ items, GoodLeaf l) :
    (tree_serialize_bytes items).bind
        (fun bs => (tree_parse bs).bind tree_serialize_bytes)
      = tree_serialize_bytes items ∧
    tree_serialize_bytes items = some (entriesBytes (tree_sorted_items items)) ∧
    List.Sorted leafLe (tree_sorted_items items) :=
  ⟨tree_roundtrip_good h, tree_serialize_bytes_good h,
    sorted_tree_sorted_items items⟩

/-- C3 witness: the amended statement applied to a two-entry tree given in
non-canonical order. -/
theorem c3_tree_roundtrip_witness :
    (tree_serialize_bytes [⟨[49, 48, 48, 54, 52, 52], [98], natToHex40 7⟩,
        ⟨[48, 52, 48, 48, 48, 48], [97], natToHex40 7⟩]).bind
        (fun bs => (tree_parse bs).bind tree_serialize_bytes)
      = tree_serialize_bytes [⟨[49, 48, 48, 54, 52, 52], [98], natToHex40 7⟩,
        ⟨[48, 52, 48, 48, 48, 48], [97], natToHex40 7⟩] ∧
    tree_serialize_bytes [⟨[49, 48, 48, 54, 52, 52], [98], natToHex40 7⟩,
        ⟨[48, 52, 48, 48, 48, 48], [97], natToHex40 7⟩]
      = some (entriesBytes (tree_sorted_items
        [⟨[49, 48, 48, 54, 52, 52], [98], natToHex40 7⟩,
          ⟨[48, 52, 48, 48, 48, 48], [97], natToHex40 7⟩])) ∧
    List.Sorted leafLe (tree_sorted_items
      [⟨[49, 48, 48, 54, 52, 52], [98], natToHex40 7⟩,
        ⟨[48, 52, 48, 48, 48, 48], [97], natToHex40 7⟩]) :=
  c3_tree_roundtrip_amended _ (by
    intro l hl
    fin_cases hl
    · exact ⟨by decide, by decide, by decide, 7, rfl, by decide⟩
    · exact ⟨by decide, by decide, by decide, 7, rfl, by decide⟩)

/-- C4.  The canonical sort key of the tree encoder is the path for an
entry whose mode begins with the bytes "10" and the path followed by a
slash for every other entry; consequently the tree with entries
(100644, b) and (040000, a) serializes with the entry a first, since its
key a-slash precedes b. -/
theorem c4_tree_sort_key (l : GitTreeLeaf) :
    (l.mode.take 2 = [49, 48] → tree_leaf_sort_key l = l.path) ∧
    (l.mode.take 2 ≠ [49, 48] → tree_leaf_sort_key l = l.path ++ [47]) ∧
    tree_serialize [⟨[49, 48, 48, 54, 52, 52], [98], natToHex40 5⟩,
        ⟨[48, 52, 48, 48, 48, 48], [97], natToHex40 6⟩]
      = ([⟨[48, 52, 48, 48, 48, 48], [97], natToHex40 6⟩,
          ⟨[49, 48, 48, 54, 52, 52], [98], natToHex40 5⟩],
        some (entryBytesGood ⟨[48, 52, 48, 48, 48, 48], [97], natToHex40 6⟩
          ++ entryBytesGood ⟨[49, 48, 48, 54, 52, 52], [98], natToHex40 5⟩)) := by
  refine ⟨?_, ?_, ?_⟩
  · intro h
    unfold tree_leaf_sort_key
    rw [if_pos h]
  · intro h
    unfold tree_leaf_sort_key
    rw [if_neg h]
  · decide

/-- C4 witness: the key of the regular-file entry (100644, b) is b and the
key of the directory entry (040000, a) is a slash. -/
theorem c4_tree_sort_key_witness :
    tree_leaf_sort_key ⟨[49, 48, 48, 54, 52, 52], [98], natToHex40 5⟩ = [98] ∧
    tree_leaf_sort_key ⟨[48, 52, 48, 48, 48, 48], [97], natToHex40 6⟩ = [97, 47] :=
  ⟨(c4_tree_sort_key ⟨[49, 48, 48, 54, 52, 52], [98], natToHex40 5⟩).1 (by decide),
    (c4_tree_sort_key ⟨[48, 52, 48, 48, 48, 48], [97], natToHex40 6⟩).2.1 (by decide)⟩

/-- C5.  object_write is idempotent: if a first write into a store
returned the digest sha and the store st1, writing the same object into
st1 returns the same digest and leaves st1 unchanged (the existing file is
found and the write skipped), and the digest is also returned when no
repository is supplied. -/
theorem c5_object_write_idempotent (zc : List Nat → List Nat)
    (sha1hex : List Nat → String) (obj : GitObject) (st : Store)
    (sha : String) (st1 : Store)
    (h : object_write zc sha1hex obj (some st) = some (sha, some st1)) :
    object_write zc sha1hex obj (some st1) = some (sha, some st1) ∧
    object_write zc sha1hex obj none = some (sha, none) := by
  cases hser : obj_serialize obj with
  | none =>
    rw [object_write, hser] at h
    cases h
  | some data =>
    simp only [object_write, hser] at h ⊢
    cases hl : storeLookup st
        (objPath (sha1hex (obj_fmt obj ++ [32] ++ natToDec data.length ++ [0] ++ data))) with
    | some v =>
      rw [hl] at h
      simp only [Option.some.injEq, Prod.mk.injEq] at h
      obtain ⟨h1, h2⟩ := h
      subst h1
      rw [← h2]
      rw [hl]
      exact ⟨rfl, rfl⟩
    | none =>
      rw [hl] at h
      simp only [Option.some.injEq, Prod.mk.injEq] at h
      obtain ⟨h1, h2⟩ := h
      subst h1
      rw [← h2]
      rw [storeLookup_cons_self]
      exact ⟨rfl, rfl⟩

/-- C5 witness: a blob written into an empty store, then written again
into the resulting store and with no repository. -/
theorem c5_object_write_idempotent_witness :
    object_write id (fun _ => "0123456789012345678901234567890123456789")
        (GitObject.blob [104, 105])
        (some [("objects/01/23456789012345678901234567890123456789",
          [98, 108, 111, 98, 32, 50, 0, 104, 105])])
      = some ("0123456789012345678901234567890123456789",
          some [("objects/01/23456789012345678901234567890123456789",
            [98, 108, 111, 98, 32, 50, 0, 104, 105])]) ∧
    object_write id (fun _ => "0123456789012345678901234567890123456789")
        (GitObject.blob [104, 105]) none
      = some ("0123456789012345678901234567890123456789", none) :=
  c5_object_write_idempotent id
    (fun _ => "0123456789012345678901234567890123456789")
    (GitObject.blob [104, 105]) []
    "0123456789012345678901234567890123456789"
    [("objects/01/23456789012345678901234567890123456789",
      [98, 108, 111, 98, 32, 50, 0, 104, 105])]
    rfl

/-- C6 counterexample.  tree_serialize sorts obj.items in place, so
serializing a tree whose entries are not already in canonical order
mutates the object: after the call the entry list differs from the one the
object was constructed with. -/
theorem c6_immutability_counterexample :
    (tree_serialize [⟨[49, 48, 48, 54, 52, 52], [98], natToHex40 1⟩,
        ⟨[48, 52, 48, 48, 48, 48], [97], natToHex40 2⟩]).1
      ≠ [⟨[49, 48, 48, 54, 52, 52], [98], natToHex40 1⟩,
        ⟨[48, 52, 48, 48, 48, 48], [97], natToHex40 2⟩] := by
  decide

/-- C6 amended.  After tree_serialize the entry list held by the object is
a permutation of the original sorted by the canonical key, and it equals
the original exactly when the original was already sorted — so an object
whose entries are in canonical order is left unchanged, and any other tree
object is mutated by serialization. -/
theorem c6_serialize_sorts_in_place (items : List GitTreeLeaf) :
    ((tree_serialize items).1.Perm items ∧
      List.Sorted leafLe (tree_serialize items).1) ∧
    ((tree_serialize items).1 = items ↔ List.Sorted leafLe items) := by
  refine ⟨⟨tree_sorted_items_perm items, sorted_tree_sorted_items items⟩, ?_, ?_⟩
  · intro h
    rw [← h]
    exact sorted_tree_sorted_items items
  · intro h
    exact tree_sorted_items_of_sorted h

/-- C7.  With x the position of the first space and y the position of the
first NUL, when the bytes between them parse as a decimal size,
object_read_raw fails as malformed exactly when that size differs from the
total inflated length minus (y + 1), and on equality it dispatches the
bytes after the NUL to the codec selected by the type tag before the
space. -/
theorem c7_length_check (raw : List Nat) (size : Nat)
    (hsz : pyInt? (pySlice raw (bfind raw 32 0) (bfind raw 0 (bfind raw 32 0)))
      = some size) :
    (object_read_raw raw = .error .malformed ↔
      (size : Int) ≠ (raw.length : Int) - bfind raw 0 (bfind raw 32 0) - 1) ∧
    ((size : Int) = (raw.length : Int) - bfind raw 0 (bfind raw 32 0) - 1 →
      object_read_raw raw
        = object_dispatch (pySlice raw 0 (bfind raw 32 0))
            (pySlice raw (bfind raw 0 (bfind raw 32 0) + 1) raw.length)) := by
  simp only [object_read_raw, hsz]
  refine ⟨⟨?_, ?_⟩, ?_⟩
  · intro h
    by_contra hcon
    rw [if_neg (not_not_intro hcon)] at h
    exact object_dispatch_ne_malformed _ _ h
  · intro hne
    rw [if_pos hne]
  · intro heq
    rw [if_neg (fun hcon => hcon heq)]

/-- C7 witness: the well-framed blob "blob 3 NUL abc" with declared size
3, dispatched to the blob codec, and its iff instance. -/
theorem c7_length_check_witness :
    pyInt? (pySlice [98, 108, 111, 98, 32, 51, 0, 97, 98, 99]
        (bfind [98, 108, 111, 98, 32, 51, 0, 97, 98, 99] 32 0)
        (bfind [98, 108, 111, 98, 32, 51, 0, 97, 98, 99] 0
          (bfind [98, 108, 111, 98, 32, 51, 0, 97, 98, 99] 32 0))) = some 3 ∧
    (((3 : Nat) : Int)
        = (([98, 108, 111, 98, 32, 51, 0, 97, 98, 99].length : Nat) : Int)
          - bfind [98, 108, 111, 98, 32, 51, 0, 97, 98, 99] 0
              (bfind [98, 108, 111, 98, 32, 51, 0, 97, 98, 99] 32 0) - 1) ∧
    object_read_raw [98, 108, 111, 98, 32, 51, 0, 97, 98, 99]
      = object_dispatch
          (pySlice [98, 108, 111, 98, 32, 51, 0, 97, 98, 99] 0
            (bfind [98, 108, 111, 98, 32, 51, 0, 97, 98, 99] 32 0))
          (pySlice [98, 108, 111, 98, 32, 51, 0, 97, 98, 99]
            (bfind [98, 108, 111, 98, 32, 51, 0, 97, 98, 99] 0
              (bfind [98, 108, 111, 98, 32, 51, 0, 97, 98, 99] 32 0) + 1)
            [98, 108, 111, 98, 32, 51, 0, 97, 98, 99].length) :=
  ⟨by decide, by decide,
    (c7_length_check [98, 108, 111, 98, 32, 51, 0, 97, 98, 99] 3
      (by decide)).2 (by decide)⟩

/-- C8.  A tree entry whose mode is the five digits 40000 is normalized on
ingest by a leading zero: it parses to the same leaf as the six-digit
entry 040000 (only the consumed positions differ by one), and that leaf
serializes back with the six mode bytes 040000. -/
theorem c8_mode_normalization (path sha20 rest : List Nat)
    (hp0 : 0 ∉ path) (hlen : sha20.length = 20) (hb : ∀ b ∈ sha20, b < 256) :
    tree_parse_one ([52, 48, 48, 48, 48] ++ [32] ++ path ++ [0] ++ sha20 ++ rest) 0
      = some (27 + path.length,
          ⟨[48, 52, 48, 48, 48, 48], path, natToHex40 (bytesToNatBE sha20)⟩) ∧
    tree_parse_one ([48, 52, 48, 48, 48, 48] ++ [32] ++ path ++ [0] ++ sha20 ++ rest) 0
      = some (28 + path.length,
          ⟨[48, 52, 48, 48, 48, 48], path, natToHex40 (bytesToNatBE sha20)⟩) ∧
    tree_entry_bytes ⟨[48, 52, 48, 48, 48, 48], path, natToHex40 (bytesToNatBE sha20)⟩
      = some ([48, 52, 48, 48, 48, 48] ++ [32] ++ path ++ [0] ++ sha20) := by
  have hval : hexToNat? (natToHex40 (bytesToNatBE sha20)) = some (bytesToNatBE sha20) :=
    hexToNat?_natToHex40 _
  have hlt : bytesToNatBE sha20 < 256 ^ 20 := by
    have h1 := bytesToNatBE_lt hb
    rw [hlen] at h1
    exact h1
  have h20 : natToBytesBE 20 (bytesToNatBE sha20) = sha20 := by
    rw [← hlen]
    exact natToBytesBE_bytesToNatBE hb
  have hsha : leafShaVal ⟨[48, 52, 48, 48, 48, 48], path, natToHex40 (bytesToNatBE sha20)⟩
      = bytesToNatBE sha20 := by
    unfold leafShaVal
    rw [hval]
    rfl
  refine ⟨tree_parse_one_five path sha20 rest hp0 hlen, ?_, ?_⟩
  · have hgood : GoodLeaf ⟨[48, 52, 48, 48, 48, 48], path, natToHex40 (bytesToNatBE sha20)⟩ :=
      ⟨rfl, by
        show (32 : Nat) ∉ ([48, 52, 48, 48, 48, 48] : List Nat)
        decide, hp0, bytesToNatBE sha20, hval, hlt⟩
    have hdrop : ([48, 52, 48, 48, 48, 48] ++ [32] ++ path ++ [0] ++ sha20 ++ rest).drop 0
        = entryBytesGood ⟨[48, 52, 48, 48, 48, 48], path, natToHex40 (bytesToNatBE sha20)⟩
          ++ rest := by
      rw [List.drop_zero]
      unfold entryBytesGood
      rw [hsha, h20]
    have h := tree_parse_one_spec hgood (by omega) hdrop

    have hre : reLeaf ⟨[48, 52, 48, 48, 48, 48], path, natToHex40 (bytesToNatBE sha20)⟩
        = ⟨[48, 52, 48, 48, 48, 48], path, natToHex40 (bytesToNatBE sha20)⟩ := by
      unfold reLeaf
      rw [hsha]
    rw [h, hre]
  · simp only [tree_entry_bytes, hval]
    rw [if_pos hlt, h20]

/-- C8 witness: the five-digit and six-digit forms of a directory entry
with path a and digest bytes 0...07. -/
theorem c8_mode_normalization_witness :
    tree_parse_one ([52, 48, 48, 48, 48] ++ [32] ++ [97] ++ [0]
        ++ (List.replicate 19 0 ++ [7]) ++ []) 0
      = some (27 + [97].length,
          ⟨[48, 52, 48, 48, 48, 48], [97],
            natToHex40 (bytesToNatBE (List.replicate 19 0 ++ [7]))⟩) ∧
    tree_parse_one ([48, 52, 48, 48, 48, 48] ++ [32] ++ [97] ++ [0]
        ++ (List.replicate 19 0 ++ [7]) ++ []) 0
      = some (28 + [97].length,
          ⟨[48, 52, 48, 48, 48, 48], [97],
            natToHex40 (bytesToNatBE (List.replicate 19 0 ++ [7]))⟩) ∧
    tree_entry_bytes ⟨[48, 52, 48, 48, 48, 48], [97],
        natToHex40 (bytesToNatBE (List.replicate 19 0 ++ [7]))⟩
      = some ([48, 52, 48, 48, 48, 48] ++ [32] ++ [97] ++ [0]
          ++ (List.replicate 19 0 ++ [7])) :=
  c8_mode_normalization [97] (List.replicate 19 0 ++ [7]) []
    (by decide) (by decide) (by decide)

/-- C9.  After a successful repo_create(path) the directories branches,
objects, refs/tags and refs/heads all exist under path/.git; description
holds the default placeholder line, HEAD holds literally
"ref: refs/heads/master\n", and config is the written form of the default
configuration, whose core section sets repositoryformatversion=0,
filemode=false, bare=false. -/
theorem c9_repo_create_postconditions (fs : FS) (path : List String) (fs2 : FS)
    (h : repo_create fs path = some fs2) :
    fsIsDir fs2 (path ++ [".git", "branches"]) = true ∧
    fsIsDir fs2 (path ++ [".git", "objects"]) = true ∧
    fsIsDir fs2 (path ++ [".git", "refs", "tags"]) = true ∧
    fsIsDir fs2 (path ++ [".git", "refs", "heads"]) = true ∧
    fsFileContent fs2 (path ++ [".git", "description"]) = some descriptionText ∧
    descriptionText
      = "Unnamed repository: edit this file \x27description\x27 to name the repository.\n" ∧
    fsFileContent fs2 (path ++ [".git", "HEAD"]) = some "ref: refs/heads/master\n" ∧
    fsFileContent fs2 (path ++ [".git", "config"]) = some (iniWrite repo_default_config) ∧
    repo_default_config
      = [("core", [("repositoryformatversion", "0"), ("filemode", "false"),
          ("bare", "false")])] := by
  obtain ⟨h1, h2, h3, h4, h5, h6, h7⟩ := repo_create_post h
  exact ⟨h1, h2, h3, h4, h5, rfl, h6, h7, rfl⟩

/-- C9 witness: creating a repository at path r in the empty filesystem. -/
theorem c9_repo_create_witness :
    repo_create ⟨[], []⟩ ["r"]
      = some ⟨[["r"], ["r", ".git"], ["r", ".git", "branches"],
          ["r", ".git", "objects"], ["r", ".git", "refs"],
          ["r", ".git", "refs", "tags"], ["r", ".git", "refs", "heads"]],
        [(["r", ".git", "config"], iniWrite repo_default_config),
          (["r", ".git", "HEAD"], headText),
          (["r", ".git", "description"], descriptionText)]⟩ ∧
    (fsIsDir ⟨[["r"], ["r", ".git"], ["r", ".git", "branches"],
          ["r", ".git", "objects"], ["r", ".git", "refs"],
          ["r", ".git", "refs", "tags"], ["r", ".git", "refs", "heads"]],
        [(["r", ".git", "config"], iniWrite repo_default_config),
          (["r", ".git", "HEAD"], headText),
          (["r", ".git", "description"], descriptionText)]⟩
        (["r"] ++ [".git", "branches"]) = true ∧
      fsIsDir ⟨[["r"], ["r", ".git"], ["r", ".git", "branches"],
          ["r", ".git", "objects"], ["r", ".git", "refs"],
          ["r", ".git", "refs", "tags"], ["r", ".git", "refs", "heads"]],
        [(["r", ".git", "config"], iniWrite repo_default_config),
          (["r", ".git", "HEAD"], headText),
          (["r", ".git", "description"], descriptionText)]⟩
        (["r"] ++ [".git", "objects"]) = true ∧
      fsIsDir ⟨[["r"], ["r", ".git"], ["r", ".git", "branches"],
          ["r", ".git", "objects"], ["r", ".git", "refs"],
          ["r", ".git", "refs", "tags"], ["r", ".git", "refs", "heads"]],
        [(["r", ".git", "config"], iniWrite repo_default_config),
          (["r", ".git", "HEAD"], headText),
          (["r", ".git", "description"], descriptionText)]⟩
        (["r"] ++ [".git", "refs", "tags"]) = true ∧
      fsIsDir ⟨[["r"], ["r", ".git"], ["r", ".git", "branches"],
          ["r", ".git", "objects"], ["r", ".git", "refs"],
          ["r", ".git", "refs", "tags"], ["r", ".git", "refs", "heads"]],
        [(["r", ".git", "config"], iniWrite repo_default_config),
          (["r", ".git", "HEAD"], headText),
          (["r", ".git", "description"], descriptionText)]⟩
        (["r"] ++ [".git", "refs", "heads"]) = true ∧
      fsFileContent ⟨[["r"], ["r", ".git"], ["r", ".git", "branches"],
          ["r", ".git", "objects"], ["r", ".git", "refs"],
          ["r", ".git", "refs", "tags"], ["r", ".git", "refs", "heads"]],
        [(["r", ".git", "config"], iniWrite repo_default_config),
          (["r", ".git", "HEAD"], headText),
          (["r", ".git", "description"], descriptionText)]⟩
        (["r"] ++ [".git", "description"]) = some descriptionText ∧
      descriptionText
        = "Unnamed repository: edit this file \x27description\x27 to name the repository.\n" ∧
      fsFileContent ⟨[["r"], ["r", ".git"], ["r", ".git", "branches"],
          ["r", ".git", "objects"], ["r", ".git", "refs"],
          ["r", ".git", "refs", "tags"], ["r", ".git", "refs", "heads"]],
        [(["r", ".git", "config"], iniWrite repo_default_config),
          (["r", ".git", "HEAD"], headText),
          (["r", ".git", "description"], descriptionText)]⟩
        (["r"] ++ [".git", "HEAD"]) = some "ref: refs/heads/master\n" ∧
      fsFileContent ⟨[["r"], ["r", ".git"], ["r", ".git", "branches"],
          ["r", ".git", "objects"], ["r", ".git", "refs"],
          ["r", ".git", "refs", "tags"], ["r", ".git", "refs", "heads"]],
        [(["r", ".git", "config"], iniWrite repo_default_config),
          (["r", ".git", "HEAD"], headText),
          (["r", ".git", "description"], descriptionText)]⟩
        (["r"] ++ [".git", "config"]) = some (iniWrite repo_default_config) ∧
      repo_default_config
        = [("core", [("repositoryformatversion", "0"), ("filemode", "false"),
            ("bare", "false")])]) :=
  ⟨rfl, c9_repo_create_postconditions ⟨[], []⟩ ["r"] _ rfl⟩

/-- C10.  kvlm_serialize requires the message sentinel: for every mapping
with no entry under the none key serialization fails, so a commit or tag
object holding such a mapping — in particular one constructed empty by
init — can neither be serialized nor written to the object store. -/
theorem c10_kvlm_serialize_requires_message (zc : List Nat → List Nat)
    (sha1hex : List Nat → String) (repo : Option Store)
    (d : List (Option (List Nat) × KvlmVal))
    (h : ∀ p ∈ d, p.1 ≠ none) :
    kvlm_serialize d = none ∧
    object_write zc sha1hex (GitObject.commit d) repo = none ∧
    object_write zc sha1hex (GitObject.tag d) repo = none := by
  have hser : kvlm_serialize d = none := by
    unfold kvlm_serialize
    rw [kvlmLookupNone_none h]
  refine ⟨hser, ?_, ?_⟩
  · show (match obj_serialize (GitObject.commit d) with
      | none => none
      | some data =>
        let result := obj_fmt (GitObject.commit d) ++ [32]
          ++ natToDec data.length ++ [0] ++ data
        let sha := sha1hex result
        match repo with
        | none => some (sha, none)
        | some st =>
          match storeLookup st (objPath sha) with
          | some _ => some (sha, some st)
          | none => some (sha, some ((objPath sha, zc result) :: st))) = none
    have hc : obj_serialize (GitObject.commit d) = none := hser
    rw [hc]
  · show (match obj_serialize (GitObject.tag d) with
      | none => none
      | some data =>
        let result := obj_fmt (GitObject.tag d) ++ [32]
          ++ natToDec data.length ++ [0] ++ data
        let sha := sha1hex result
        match repo with
        | none => some (sha, none)
        | some st =>
          match storeLookup st (objPath sha) with
          | some _ => some (sha, some st)
          | none => some (sha, some ((objPath sha, zc result) :: st))) = none
    have hc : obj_serialize (GitObject.tag d) = none := rfl
    rw [hc]

/-- C10 witness: the empty mapping produced by init. -/
theorem c10_kvlm_serialize_requires_message_witness :
    kvlm_serialize ([] : Kvlm) = none ∧
    object_write id (fun _ => "") (GitObject.commit ([] : Kvlm)) none = none ∧
    object_write id (fun _ => "") (GitObject.tag ([] : Kvlm)) none = none :=
  c10_kvlm_serialize_requires_message id (fun _ => "") none ([] : Kvlm)
    (fun p hp => absurd hp (List.not_mem_nil p))
